import Mathlib

/-!
# Verification of the `TestMarket` clearing engine of `ecosim` (`src/main.rs`)

This file is a shallow embedding, in Lean 4, of the market-clearing core of the
`ecosim` repository: the `OrderInfo` data model and the `TestMarket` operations
`register_order`, `run_trade` (with its helpers `distribute` and `trade_loop`),
`retrieve_order_result` and `clear_state`.

Embedding conventions, kept close to the Rust source:

* `u64` quantities are embedded as `Nat`.  Every `-` in the Rust source that the
  claims exercise is shown never to underflow under the claims' hypotheses
  (`traded_quantity ≤ required_quantity`), so `Nat` truncated subtraction agrees
  with `u64` subtraction there.
* `f64` values (`price_per_unit`, `prestige`) are embedded as `Rat`; no claim
  depends on floating-point rounding.
* `Uuid` is embedded as `Nat`; `Uuid::new_v4` is an ambient generator, so
  `register_order` takes the fresh identifier as an explicit argument.
* The two unbounded `loop`s of the source (`distribute`'s equal-chunk loop and
  `run_trade`'s `'main` loop) are embedded with an explicit fuel parameter
  (`distLoopF`, `mainLoopF`).  The fuel bounds used by `distribute` and
  `run_trade` are proved sufficient: the loops stabilize at those bounds
  (see the termination theorem for claim C9), so the fuelled functions compute
  exactly what the Rust loops compute.
* The `HashMap<i64, Vec<OrderInfo>>` grouping of orders into prestige tiers has
  unspecified iteration order in Rust (`into_values`).  `run_trade` therefore
  takes the two tier sequences as explicit arguments, and the theorems quantify
  over every partition of the book's orders into nonempty tiers (`IsTiering`),
  which is strictly more general than the partitions the `HashMap` can produce.
* `assert_eq!` in the source is embedded by returning `Option`: `none` models
  the fatal assertion failure (and, in `mainLoopF`, fuel exhaustion, which is
  proved unreachable at the fuel bound used by `run_trade`).
-/

/-- Rust `enum OrderType { Buy, Sell }`. -/
inductive OrderType where
  | Buy : OrderType
  | Sell : OrderType
deriving DecidableEq, Repr

/-- Rust `struct OrderInfo` (`src/main.rs:27-33`): an order registered with the
market.  `uuid` embeds `Uuid` as `Nat`, `prestige` embeds `f64` as `Rat`. -/
structure OrderInfo where
  uuid : Nat
  required_quantity : Nat
  traded_quantity : Nat
  prestige : Rat
deriving DecidableEq, Repr

/-- Rust `OrderInfo::new` (`src/main.rs:36-38`): a freshly registered order has
`traded_quantity = 0`. -/
def OrderInfo.new (uuid : Nat) (required_quantity : Nat) (prestige : Rat) : OrderInfo :=
  ⟨uuid, required_quantity, 0, prestige⟩

/-- Rust `OrderInfo::missing_quantity` (`src/main.rs:40-42`):
`required_quantity - traded_quantity`. -/
def OrderInfo.missing_quantity (x : OrderInfo) : Nat :=
  x.required_quantity - x.traded_quantity

/-- Rust `struct OrderResult` (`src/main.rs:45-49`). -/
structure OrderResult where
  ordertype : OrderType
  traded_quantity : Nat
  total_cost : Rat
deriving DecidableEq, Repr

/-- Rust `struct TestMarket` (`src/main.rs:370-376`). -/
structure TestMarket where
  good_uid : Nat
  price_per_unit : Rat
  buy_orders : List OrderInfo
  sell_orders : List OrderInfo
deriving DecidableEq, Repr

/-! ## The rationing helper `distribute` (`src/main.rs:379-412`) -/

/-- The count `not_fulled` of `src/main.rs:382`: how many recipients still have
`traded_quantity != required_quantity`. -/
def notFullCount (rs : List OrderInfo) : Nat :=
  (rs.filter fun x => x.traded_quantity != x.required_quantity).length

/-- The mutation applied to one not-full recipient by the equal-chunk pass of
`distribute` (`src/main.rs:388-393`): add the chunk, then cap at
`required_quantity`. -/
def applyChunk (c : Nat) (x : OrderInfo) : OrderInfo :=
  if x.required_quantity < x.traded_quantity + c
  then ⟨x.uuid, x.required_quantity, x.required_quantity, x.prestige⟩
  else ⟨x.uuid, x.required_quantity, x.traded_quantity + c, x.prestige⟩

/-- The amount one not-full recipient contributes to `distributed` in the
equal-chunk pass (`src/main.rs:392-394`): the chunk minus the part returned
after capping. -/
def chunkGain (c : Nat) (x : OrderInfo) : Nat :=
  if x.required_quantity < x.traded_quantity + c
  then c - (x.traded_quantity + c - x.required_quantity)
  else c

/-- One equal-chunk pass over the recipients: the `iter_mut().filter(...).fold`
of `src/main.rs:386-395`.  Returns the updated recipients and the total
`distributed` in this pass. -/
def distPass (c : Nat) : List OrderInfo → List OrderInfo × Nat
  | [] => ([], 0)
  | x :: xs =>
    let p := distPass c xs
    if x.traded_quantity != x.required_quantity then
      (applyChunk c x :: p.1, chunkGain c x + p.2)
    else
      (x :: p.1, p.2)

/-- The equal-chunk `loop` of `distribute` (`src/main.rs:381-398`), with an
explicit fuel parameter.  The state is the recipients `rs` and the running
total `dfn` (`dist_for_now`).  Exits when no recipient is unfilled, when the
whole-unit chunk is zero, or when a pass distributes zero units — exactly the
three `break`s of the source.  Fuel `total - dfn + 1` is proved sufficient. -/
def distLoopF : Nat → Nat → List OrderInfo → Nat → List OrderInfo × Nat
  | 0, _, rs, dfn => (rs, dfn)
  | fuel + 1, total, rs, dfn =>
    let nf := notFullCount rs
    if nf = 0 then (rs, dfn)
    else
      let chunk := (total - dfn) / nf
      if chunk = 0 then (rs, dfn)
      else
        let p := distPass chunk rs
        if p.2 = 0 then (p.1, dfn + p.2)
        else distLoopF fuel total p.1 (dfn + p.2)

/-- The remainder loop of `distribute` (`src/main.rs:400-409`): hand the final
remainder out one unit at a time to still-unfilled recipients in iteration
order, stopping (`break`) at the first unfilled recipient reached with no
remainder left.  Returns the updated recipients and the number of units
placed. -/
def distRemainder (rem : Nat) : List OrderInfo → List OrderInfo × Nat
  | [] => ([], 0)
  | x :: xs =>
    if x.traded_quantity != x.required_quantity then
      if 0 < rem then
        let p := distRemainder (rem - 1) xs
        (⟨x.uuid, x.required_quantity, x.traded_quantity + 1, x.prestige⟩ :: p.1, p.2 + 1)
      else
        (x :: xs, 0)
    else
      let p := distRemainder rem xs
      (x :: p.1, p.2)

/-- Rust `TestMarket::distribute` (`src/main.rs:379-412`): ration
`total_to_dist` units across the recipients — equal-chunk rounds, then the
one-unit remainder pass — returning the updated recipients and the total
actually placed (`dist_for_now`). -/
def distribute (total_to_dist : Nat) (recvarray : List OrderInfo) : List OrderInfo × Nat :=
  let p := distLoopF (total_to_dist + 1) total_to_dist recvarray 0
  let q := distRemainder (total_to_dist - p.2) p.1
  (q.1, p.2 + q.2)

/-! ## `trade_loop` and `run_trade` (`src/main.rs:414-431, 457-561`) -/

/-- Rust `TestMarket::trade_loop` (`src/main.rs:414-431`): distribute
`total_to_dist` over the receiving side, mirror the distributed amount onto the
distributing side, and `assert_eq!` the two totals.  `none` models the fatal
assertion failure. -/
def trade_loop (distrarray recvarray : List OrderInfo) (total_to_dist : Nat) :
    Option (List OrderInfo × List OrderInfo × Nat) :=
  let r := distribute total_to_dist recvarray
  let d := distribute r.2 distrarray
  if r.2 = d.2 then some (d.1, r.1, r.2) else none

/-- The `Ordering::Equal` arm of `run_trade` (`src/main.rs:529-534`): set every
order's `traded_quantity` to its `required_quantity`. -/
def fillAll (rs : List OrderInfo) : List OrderInfo :=
  rs.map fun x => ⟨x.uuid, x.required_quantity, x.required_quantity, x.prestige⟩

/-- The fold of `src/main.rs:480-481` computing a side's remaining quantity:
`fold(0, |acc, x| acc + x.required_quantity - x.traded_quantity)`.  Note the
Rust expression parses as `(acc + required) - traded`; the embedding keeps that
shape (`Nat` subtraction binds the same way). -/
def totalMissing (rs : List OrderInfo) : Nat :=
  rs.foldl (fun acc x => acc + x.required_quantity - x.traded_quantity) 0

/-- The `'main` loop of `run_trade` (`src/main.rs:479-557`), with explicit
fuel.  State: the current buy and sell tiers `ba`, `sa`, the not-yet-visited
tiers `bts`, `sts` (the rest of the `HashMap` value iterators), the result
accumulators `rb`, `rs` and the running `total_final_traded` `acc`.  Each arm
of the `match total_sell.cmp(&total_buy)` is mirrored, including the exit paths
that drop not-yet-visited tiers.  `none` models either a fatal `assert_eq!`
failure or fuel exhaustion; fuel `bts.length + sts.length + 1` is proved
sufficient. -/
def mainLoopF : Nat → List OrderInfo → List OrderInfo →
    List (List OrderInfo) → List (List OrderInfo) →
    List OrderInfo → List OrderInfo → Nat →
    Option (List OrderInfo × List OrderInfo × Nat)
  | 0, _, _, _, _, _, _, _ => none
  | fuel + 1, ba, sa, bts, sts, rb, rs, acc =>
    let total_buy := totalMissing ba
    let total_sell := totalMissing sa
    if total_buy < total_sell then
      match trade_loop ba sa total_buy with
      | none => none
      | some (ba', sa', tt) =>
        if tt = total_buy then
          match bts with
          | b :: bts' => mainLoopF fuel b sa' bts' sts (rb ++ ba') rs (acc + tt)
          | [] => some (rb ++ ba', rs ++ sa', acc + tt)
        else none
    else if total_sell < total_buy then
      match trade_loop sa ba total_sell with
      | none => none
      | some (sa', ba', tt) =>
        if tt = total_sell then
          match sts with
          | s :: sts' => mainLoopF fuel ba' s bts sts' rb (rs ++ sa') (acc + tt)
          | [] => some (rb ++ ba', rs ++ sa', acc + tt)
        else none
    else
      let ba' := fillAll ba
      let sa' := fillAll sa
      match bts with
      | [] => some (rb ++ ba', rs ++ sa', acc + total_buy)
      | b :: bts' =>
        match sts with
        | [] => some (rb ++ ba', rs ++ sa', acc + total_buy)
        | s :: sts' => mainLoopF fuel b s bts' sts' (rb ++ ba') (rs ++ sa') (acc + total_buy)

/-- Rust `TestMarket::run_trade` (`src/main.rs:457-561`).  The prestige-tier
sequences `bts` and `sts` stand for the value sequences of the two `HashMap`s
(whose iteration order Rust leaves unspecified); theorems quantify over every
valid tiering.  Returns the updated market and `total_final_traded`; `none`
models a panic (fatal assertion, or an empty tiering for a nonempty side, which
cannot occur for a valid tiering). -/
def run_trade (m : TestMarket) (bts sts : List (List OrderInfo)) :
    Option (TestMarket × Nat) :=
  if m.buy_orders = [] ∨ m.sell_orders = [] then some (m, 0)
  else
    match bts, sts with
    | b :: bts', s :: sts' =>
      match mainLoopF (bts'.length + sts'.length + 1) b s bts' sts' [] [] 0 with
      | some (fb, fs, t) => some (⟨m.good_uid, m.price_per_unit, fb, fs⟩, t)
      | none => none
    | _, _ => none

/-! ## `register_order`, `retrieve_order_result`, `clear_state`
(`src/main.rs:443-455, 563-584`) -/

/-- Rust `TestMarket::register_order` (`src/main.rs:443-455`): push a fresh
order (with `traded_quantity = 0`) on the requested side and return its
identifier.  The fresh `Uuid` is an explicit argument (see header). -/
def register_order (m : TestMarket) (otype : OrderType) (quantity : Nat)
    (prestige : Rat) (uuid : Nat) : TestMarket × Nat :=
  match otype with
  | OrderType.Buy =>
    (⟨m.good_uid, m.price_per_unit, m.buy_orders ++ [OrderInfo.new uuid quantity prestige],
      m.sell_orders⟩, uuid)
  | OrderType.Sell =>
    (⟨m.good_uid, m.price_per_unit, m.buy_orders,
      m.sell_orders ++ [OrderInfo.new uuid quantity prestige]⟩, uuid)

/-- Rust `TestMarket::retrieve_order_result` (`src/main.rs:563-577`): look the
identifier up among the buy orders first, then the sell orders; `none` is the
`NotFound` outcome.  The total cost is `traded_quantity as f64 *
price_per_unit`, embedded over `Rat`. -/
def retrieve_order_result (m : TestMarket) (uuid : Nat) : Option OrderResult :=
  match m.buy_orders.find? fun x => x.uuid == uuid with
  | some x => some ⟨OrderType.Buy, x.traded_quantity, (x.traded_quantity : Rat) * m.price_per_unit⟩
  | none =>
    match m.sell_orders.find? fun x => x.uuid == uuid with
    | some x => some ⟨OrderType.Sell, x.traded_quantity, (x.traded_quantity : Rat) * m.price_per_unit⟩
    | none => none

/-- The full effect of a `retrieve_order_result` call on the market: the Rust
method takes `&mut self` but performs no write, so the market comes back
unchanged alongside the lookup result. -/
def retrieve_order_result_call (m : TestMarket) (uuid : Nat) :
    TestMarket × Option OrderResult :=
  (m, retrieve_order_result m uuid)

/-- Rust `TestMarket::clear_state` (`src/main.rs:579-584`): drop all orders on
both sides. -/
def clear_state (m : TestMarket) : TestMarket :=
  ⟨m.good_uid, m.price_per_unit, [], []⟩

/-! ## Specification-side notions used by the claims -/

/-- The per-order bound invariant of the spec: `0 ≤ filled ≤ requested`
(the lower bound is inherent to `Nat`). -/
def Bounded (rs : List OrderInfo) : Prop :=
  ∀ x ∈ rs, x.traded_quantity ≤ x.required_quantity

/-- All orders in the list are freshly registered: `traded_quantity = 0`. -/
def ZeroTraded (rs : List OrderInfo) : Prop :=
  ∀ x ∈ rs, x.traded_quantity = 0

/-- An order is fully filled. -/
def Full (x : OrderInfo) : Prop :=
  x.traded_quantity = x.required_quantity

/-- `Evolves x y`: `y` is the same order as `x` later in the tick — identical
identifier, requested quantity and prestige, with a traded quantity that has
not decreased. -/
def Evolves (x y : OrderInfo) : Prop :=
  y.uuid = x.uuid ∧ y.required_quantity = x.required_quantity ∧
    x.traded_quantity ≤ y.traded_quantity ∧ y.prestige = x.prestige

/-- Sum of the traded quantities of a list of orders. -/
def sumTraded (rs : List OrderInfo) : Nat :=
  (rs.map fun x => x.traded_quantity).sum

/-- Sum of the required quantities of a list of orders. -/
def sumRequired (rs : List OrderInfo) : Nat :=
  (rs.map fun x => x.required_quantity).sum

/-- Sum of the per-order remaining needs `required - traded`. -/
def missingSum (rs : List OrderInfo) : Nat :=
  (rs.map fun x => x.required_quantity - x.traded_quantity).sum

/-- Total remaining need of a sequence of tiers. -/
def tiersMissing (ts : List (List OrderInfo)) : Nat :=
  (ts.map missingSum).sum

/-- `IsTiering tiers orders`: `tiers` is a partition of `orders` into nonempty
groups, as produced by the `HashMap` prestige grouping of `run_trade`
(`src/main.rs:463-470`) in some unspecified iteration order. -/
def IsTiering (tiers : List (List OrderInfo)) (orders : List OrderInfo) : Prop :=
  (∀ t ∈ tiers, t ≠ []) ∧ List.Perm tiers.flatten orders

/-! ## Basic lemmas about the specification-side notions -/

theorem evolves_refl (x : OrderInfo) : Evolves x x :=
  ⟨rfl, rfl, Nat.le_refl _, rfl⟩

theorem evolves_trans {x y z : OrderInfo} (h1 : Evolves x y) (h2 : Evolves y z) :
    Evolves x z :=
  ⟨h2.1.trans h1.1, h2.2.1.trans h1.2.1, h1.2.2.1.trans h2.2.2.1, h2.2.2.2.trans h1.2.2.2⟩

theorem forall₂_evolves_refl : ∀ rs : List OrderInfo, List.Forall₂ Evolves rs rs
  | [] => List.Forall₂.nil
  | x :: xs => List.Forall₂.cons (evolves_refl x) (forall₂_evolves_refl xs)

theorem forall₂_evolves_trans :
    ∀ {a b c : List OrderInfo}, List.Forall₂ Evolves a b → List.Forall₂ Evolves b c →
      List.Forall₂ Evolves a c
  | _, _, _, List.Forall₂.nil, List.Forall₂.nil => List.Forall₂.nil
  | _, _, _, List.Forall₂.cons h1 t1, List.Forall₂.cons h2 t2 =>
    List.Forall₂.cons (evolves_trans h1 h2) (forall₂_evolves_trans t1 t2)

theorem forall₂_evolves_origin :
    ∀ {a b : List OrderInfo}, List.Forall₂ Evolves a b → ∀ x ∈ b, ∃ y ∈ a, Evolves y x
  | _, _, List.Forall₂.nil => by intro x hx; cases hx
  | _, _, List.Forall₂.cons h1 t1 => by
    intro x hx
    rcases List.mem_cons.mp hx with h | h
    · exact ⟨_, List.mem_cons_self _ _, h ▸ h1⟩
    · obtain ⟨y, hy, hxy⟩ := forall₂_evolves_origin t1 x h
      exact ⟨y, List.mem_cons_of_mem _ hy, hxy⟩

theorem bounded_nil : Bounded [] := by
  intro x hx; cases hx

theorem bounded_cons {x : OrderInfo} {xs : List OrderInfo} :
    Bounded (x :: xs) ↔ x.traded_quantity ≤ x.required_quantity ∧ Bounded xs := by
  constructor
  · intro h
    exact ⟨h x (List.mem_cons_self _ _), fun y hy => h y (List.mem_cons_of_mem _ hy)⟩
  · rintro ⟨h1, h2⟩ y hy
    rcases List.mem_cons.mp hy with h | h
    · exact h ▸ h1
    · exact h2 y h

@[simp] theorem sumTraded_nil : sumTraded [] = 0 := rfl

@[simp] theorem sumTraded_cons (x : OrderInfo) (xs : List OrderInfo) :
    sumTraded (x :: xs) = x.traded_quantity + sumTraded xs := rfl

@[simp] theorem sumTraded_append (a b : List OrderInfo) :
    sumTraded (a ++ b) = sumTraded a + sumTraded b := by
  simp [sumTraded]

@[simp] theorem sumRequired_nil : sumRequired [] = 0 := rfl

@[simp] theorem sumRequired_cons (x : OrderInfo) (xs : List OrderInfo) :
    sumRequired (x :: xs) = x.required_quantity + sumRequired xs := rfl

@[simp] theorem sumRequired_append (a b : List OrderInfo) :
    sumRequired (a ++ b) = sumRequired a + sumRequired b := by
  simp [sumRequired]

@[simp] theorem missingSum_nil : missingSum [] = 0 := rfl

@[simp] theorem missingSum_cons (x : OrderInfo) (xs : List OrderInfo) :
    missingSum (x :: xs) =
      (x.required_quantity - x.traded_quantity) + missingSum xs := rfl

@[simp] theorem missingSum_append (a b : List OrderInfo) :
    missingSum (a ++ b) = missingSum a + missingSum b := by
  simp [missingSum]

@[simp] theorem notFullCount_nil : notFullCount [] = 0 := rfl

theorem notFullCount_cons_full {x : OrderInfo} {xs : List OrderInfo}
    (h : x.traded_quantity = x.required_quantity) :
    notFullCount (x :: xs) = notFullCount xs := by
  simp [notFullCount, List.filter_cons, h]

theorem notFullCount_cons_notfull {x : OrderInfo} {xs : List OrderInfo}
    (h : x.traded_quantity ≠ x.required_quantity) :
    notFullCount (x :: xs) = notFullCount xs + 1 := by
  simp [notFullCount, List.filter_cons, h]

/-- With every order within bounds, the Rust fold `acc + required - traded`
computes the sum of the per-order remaining needs. -/
theorem totalMissing_eq_missingSum {rs : List OrderInfo} (h : Bounded rs) :
    totalMissing rs = missingSum rs := by
  have key : ∀ rs : List OrderInfo, Bounded rs → ∀ acc : Nat,
      rs.foldl (fun acc x => acc + x.required_quantity - x.traded_quantity) acc =
        acc + missingSum rs := by
    intro rs
    induction rs with
    | nil => intro _ acc; simp
    | cons x xs ih =>
      intro hb acc
      rw [bounded_cons] at hb
      rw [List.foldl_cons, ih hb.2, missingSum_cons]
      omega
  have := key rs h 0
  simpa [totalMissing] using this

/-- Orders with no remaining need are exactly the full ones; an all-full list
has `missingSum` zero, and conversely within bounds. -/
theorem missingSum_eq_zero_iff {rs : List OrderInfo} (h : Bounded rs) :
    missingSum rs = 0 ↔ ∀ x ∈ rs, Full x := by
  induction rs with
  | nil => simp
  | cons x xs ih =>
    rw [bounded_cons] at h
    rw [missingSum_cons]
    constructor
    · intro h0 y hy
      rcases List.mem_cons.mp hy with hyx | hyx
      · subst hyx
        have : y.required_quantity - y.traded_quantity = 0 := by omega
        have := h.1
        unfold Full
        omega
      · exact ((ih h.2).mp (by omega)) y hyx
    · intro hall
      have hx : Full x := hall x (List.mem_cons_self _ _)
      have hxs : missingSum xs = 0 :=
        (ih h.2).mpr fun y hy => hall y (List.mem_cons_of_mem _ hy)
      unfold Full at hx
      omega

/-- A list with no not-full element consists of full orders. -/
theorem notFullCount_eq_zero_iff {rs : List OrderInfo} :
    notFullCount rs = 0 ↔ ∀ x ∈ rs, Full x := by
  induction rs with
  | nil => simp
  | cons x xs ih =>
    by_cases hx : x.traded_quantity = x.required_quantity
    · rw [notFullCount_cons_full hx, ih]
      constructor
      · intro h y hy
        rcases List.mem_cons.mp hy with hyx | hyx
        · exact hyx ▸ hx
        · exact h y hyx
      · intro h y hy; exact h y (List.mem_cons_of_mem _ hy)
    · rw [notFullCount_cons_notfull hx]
      constructor
      · intro h; omega
      · intro h
        exact absurd (h x (List.mem_cons_self _ _)) hx

/-- Within bounds, each not-full order contributes at least one unit of need. -/
theorem notFullCount_le_missingSum {rs : List OrderInfo} (h : Bounded rs) :
    notFullCount rs ≤ missingSum rs := by
  induction rs with
  | nil => simp
  | cons x xs ih =>
    rw [bounded_cons] at h
    have := ih h.2
    by_cases hx : x.traded_quantity = x.required_quantity
    · rw [notFullCount_cons_full hx, missingSum_cons]; omega
    · rw [notFullCount_cons_notfull hx, missingSum_cons]
      have := h.1
      omega

theorem zeroTraded_bounded {rs : List OrderInfo} (h : ZeroTraded rs) : Bounded rs := by
  intro x hx
  rw [h x hx]
  exact Nat.zero_le _

theorem zeroTraded_sumTraded {rs : List OrderInfo} (h : ZeroTraded rs) :
    sumTraded rs = 0 := by
  induction rs with
  | nil => rfl
  | cons x xs ih =>
    rw [sumTraded_cons, h x (List.mem_cons_self _ _),
      ih fun y hy => h y (List.mem_cons_of_mem _ hy)]

theorem zeroTraded_missingSum {rs : List OrderInfo} (h : ZeroTraded rs) :
    missingSum rs = sumRequired rs := by
  induction rs with
  | nil => rfl
  | cons x xs ih =>
    rw [missingSum_cons, sumRequired_cons, h x (List.mem_cons_self _ _),
      ih fun y hy => h y (List.mem_cons_of_mem _ hy)]
    omega

/-! ## Correctness of the equal-chunk pass -/

theorem applyChunk_spec {c : Nat} {x : OrderInfo}
    (hx : x.traded_quantity ≤ x.required_quantity) :
    (applyChunk c x).uuid = x.uuid ∧
    (applyChunk c x).required_quantity = x.required_quantity ∧
    (applyChunk c x).prestige = x.prestige ∧
    (applyChunk c x).traded_quantity = x.traded_quantity + chunkGain c x ∧
    (applyChunk c x).traded_quantity ≤ x.required_quantity ∧
    chunkGain c x ≤ c ∧
    (0 < c → x.traded_quantity ≠ x.required_quantity → 0 < chunkGain c x) := by
  by_cases h : x.required_quantity < x.traded_quantity + c
  · simp only [applyChunk, chunkGain, if_pos h]
    refine ⟨trivial, trivial, trivial, ?_, ?_, ?_, ?_⟩ <;> first | trivial | omega
  · simp only [applyChunk, chunkGain, if_neg h]
    refine ⟨trivial, trivial, trivial, ?_, ?_, ?_, ?_⟩ <;> first | trivial | omega

theorem distPass_cons_full {c : Nat} {x : OrderInfo} {xs : List OrderInfo}
    (h : x.traded_quantity = x.required_quantity) :
    distPass c (x :: xs) = (x :: (distPass c xs).1, (distPass c xs).2) := by
  simp [distPass, h]

theorem distPass_cons_notfull {c : Nat} {x : OrderInfo} {xs : List OrderInfo}
    (h : x.traded_quantity ≠ x.required_quantity) :
    distPass c (x :: xs) =
      (applyChunk c x :: (distPass c xs).1, chunkGain c x + (distPass c xs).2) := by
  simp [distPass, h]

/-- Everything the proofs need about one equal-chunk pass: bounds are
preserved, orders only grow (`Evolves`), the reported `distributed` is exactly
the total growth, the remaining need shrinks by exactly `distributed`, a pass
places at most `chunk × not_fulled` units, and (for a positive chunk) at least
one unit per not-full recipient. -/
theorem distPass_spec (c : Nat) :
    ∀ rs : List OrderInfo, Bounded rs →
      Bounded (distPass c rs).1 ∧
      List.Forall₂ Evolves rs (distPass c rs).1 ∧
      sumTraded (distPass c rs).1 = sumTraded rs + (distPass c rs).2 ∧
      missingSum (distPass c rs).1 + (distPass c rs).2 = missingSum rs ∧
      (distPass c rs).2 ≤ c * notFullCount rs ∧
      (0 < c → notFullCount rs ≤ (distPass c rs).2) := by
  intro rs
  induction rs with
  | nil =>
    intro _
    refine ⟨bounded_nil, List.Forall₂.nil, rfl, rfl, ?_, ?_⟩ <;> simp [distPass]
  | cons x xs ih =>
    intro hb
    rw [bounded_cons] at hb
    obtain ⟨hx, hxs⟩ := hb
    obtain ⟨ih1, ih2, ih3, ih4, ih5, ih6⟩ := ih hxs
    by_cases hfull : x.traded_quantity = x.required_quantity
    · rw [distPass_cons_full hfull, notFullCount_cons_full hfull]
      refine ⟨?_, List.Forall₂.cons (evolves_refl x) ih2, ?_, ?_, ih5, ih6⟩
      · rw [bounded_cons]; exact ⟨hx, ih1⟩
      · rw [sumTraded_cons, sumTraded_cons]; omega
      · rw [missingSum_cons, missingSum_cons]; omega
    · obtain ⟨ha1, ha2, ha3, ha4, ha5, ha6, ha7⟩ := applyChunk_spec (c := c) hx
      rw [distPass_cons_notfull hfull, notFullCount_cons_notfull hfull]
      refine ⟨?_, ?_, ?_, ?_, ?_, ?_⟩
      · rw [bounded_cons]
        exact ⟨ha2 ▸ ha5, ih1⟩
      · exact List.Forall₂.cons ⟨ha1, ha2, by omega, ha3⟩ ih2
      · rw [sumTraded_cons, sumTraded_cons]; omega
      · rw [missingSum_cons, missingSum_cons, ha2, ha4]
        omega
      · rw [Nat.mul_succ]
        generalize c * notFullCount xs = k at ih5
        omega
      · intro hc
        have := ha7 hc hfull
        have := ih6 hc
        omega

/-! ## Correctness of the equal-chunk loop -/

theorem distLoopF_succ_nf0 {fuel total : Nat} {rs : List OrderInfo} {dfn : Nat}
    (h : notFullCount rs = 0) :
    distLoopF (fuel + 1) total rs dfn = (rs, dfn) := by
  simp [distLoopF, h]

theorem distLoopF_succ_chunk0 {fuel total : Nat} {rs : List OrderInfo} {dfn : Nat}
    (h : notFullCount rs ≠ 0) (h2 : (total - dfn) / notFullCount rs = 0) :
    distLoopF (fuel + 1) total rs dfn = (rs, dfn) := by
  simp [distLoopF, h, h2]

theorem distLoopF_succ_pass0 {fuel total : Nat} {rs : List OrderInfo} {dfn : Nat}
    (h : notFullCount rs ≠ 0) (h2 : (total - dfn) / notFullCount rs ≠ 0)
    (h3 : (distPass ((total - dfn) / notFullCount rs) rs).2 = 0) :
    distLoopF (fuel + 1) total rs dfn =
      ((distPass ((total - dfn) / notFullCount rs) rs).1,
        dfn + (distPass ((total - dfn) / notFullCount rs) rs).2) := by
  simp [distLoopF, h, h2, h3]

theorem distLoopF_succ_rec {fuel total : Nat} {rs : List OrderInfo} {dfn : Nat}
    (h : notFullCount rs ≠ 0) (h2 : (total - dfn) / notFullCount rs ≠ 0)
    (h3 : (distPass ((total - dfn) / notFullCount rs) rs).2 ≠ 0) :
    distLoopF (fuel + 1) total rs dfn =
      distLoopF fuel total (distPass ((total - dfn) / notFullCount rs) rs).1
        (dfn + (distPass ((total - dfn) / notFullCount rs) rs).2) := by
  simp [distLoopF, h, h2, h3]

/-- Invariant of the equal-chunk loop (`src/main.rs:381-398`): with bounded
recipients and enough fuel, the loop preserves bounds and `Evolves`, reports
exactly the growth in traded quantity, shrinks the total need by exactly the
reported amount, never places more than `total`, and stops only with either
no unfilled recipient left or a running total within `not_fulled` of `total`. -/
theorem distLoopF_spec :
    ∀ (fuel total : Nat) (rs : List OrderInfo) (dfn : Nat),
      Bounded rs → dfn ≤ total → total - dfn < fuel →
      Bounded (distLoopF fuel total rs dfn).1 ∧
      List.Forall₂ Evolves rs (distLoopF fuel total rs dfn).1 ∧
      sumTraded (distLoopF fuel total rs dfn).1 + dfn =
        sumTraded rs + (distLoopF fuel total rs dfn).2 ∧
      missingSum (distLoopF fuel total rs dfn).1 + (distLoopF fuel total rs dfn).2 =
        missingSum rs + dfn ∧
      dfn ≤ (distLoopF fuel total rs dfn).2 ∧
      (distLoopF fuel total rs dfn).2 ≤ total ∧
      (notFullCount (distLoopF fuel total rs dfn).1 = 0 ∨
        total < (distLoopF fuel total rs dfn).2 +
          notFullCount (distLoopF fuel total rs dfn).1) := by
  intro fuel
  induction fuel with
  | zero =>
    intro total rs dfn _ _ hf
    omega
  | succ fuel ih =>
    intro total rs dfn hb hd hf
    by_cases hnf : notFullCount rs = 0
    · rw [distLoopF_succ_nf0 hnf]
      exact ⟨hb, forall₂_evolves_refl rs, rfl, rfl, Nat.le_refl _, hd, Or.inl hnf⟩
    · by_cases hchunk : (total - dfn) / notFullCount rs = 0
      · rw [distLoopF_succ_chunk0 hnf hchunk]
        refine ⟨hb, forall₂_evolves_refl rs, rfl, rfl, Nat.le_refl _, hd, Or.inr ?_⟩
        have := (Nat.div_eq_zero_iff (Nat.pos_of_ne_zero hnf)).mp hchunk
        show total < dfn + notFullCount rs
        omega
      · obtain ⟨p1, p2, p3, p4, p5, p6⟩ :=
          distPass_spec ((total - dfn) / notFullCount rs) rs hb
        have hpos : 0 < (total - dfn) / notFullCount rs := Nat.pos_of_ne_zero hchunk
        have hp2pos : (distPass ((total - dfn) / notFullCount rs) rs).2 ≠ 0 := by
          have := p6 hpos
          have := Nat.pos_of_ne_zero hnf
          omega
        rw [distLoopF_succ_rec hnf hchunk hp2pos]
        have hmul : (total - dfn) / notFullCount rs * notFullCount rs ≤ total - dfn :=
          Nat.div_mul_le_self (total - dfn) (notFullCount rs)
        have hp2le : (distPass ((total - dfn) / notFullCount rs) rs).2 ≤ total - dfn := by
          omega
        obtain ⟨g1, g2, g3, g4, g5, g6, g7⟩ :=
          ih total (distPass ((total - dfn) / notFullCount rs) rs).1
            (dfn + (distPass ((total - dfn) / notFullCount rs) rs).2)
            p1 (by omega) (by omega)
        refine ⟨g1, forall₂_evolves_trans p2 g2, by omega, by omega, by omega, g6, g7⟩

/-! ## Correctness of the remainder pass -/

theorem distRemainder_cons_full {rem : Nat} {x : OrderInfo} {xs : List OrderInfo}
    (h : x.traded_quantity = x.required_quantity) :
    distRemainder rem (x :: xs) =
      (x :: (distRemainder rem xs).1, (distRemainder rem xs).2) := by
  simp [distRemainder, h]

theorem distRemainder_cons_notfull_pos {rem : Nat} {x : OrderInfo} {xs : List OrderInfo}
    (h : x.traded_quantity ≠ x.required_quantity) (hr : 0 < rem) :
    distRemainder rem (x :: xs) =
      (⟨x.uuid, x.required_quantity, x.traded_quantity + 1, x.prestige⟩ ::
          (distRemainder (rem - 1) xs).1,
        (distRemainder (rem - 1) xs).2 + 1) := by
  simp [distRemainder, h, hr]

theorem distRemainder_cons_notfull_zero {x : OrderInfo} {xs : List OrderInfo}
    (h : x.traded_quantity ≠ x.required_quantity) :
    distRemainder 0 (x :: xs) = (x :: xs, 0) := by
  simp [distRemainder, h]

/-- When no recipient is unfilled, the remainder pass changes nothing and
places nothing. -/
theorem distRemainder_allFull :
    ∀ (rs : List OrderInfo), notFullCount rs = 0 → ∀ rem, distRemainder rem rs = (rs, 0)
  | [], _, _ => rfl
  | x :: xs, h, rem => by
    by_cases hx : x.traded_quantity = x.required_quantity
    · rw [distRemainder_cons_full hx,
        distRemainder_allFull xs (by rwa [notFullCount_cons_full hx] at h) rem]
    · rw [notFullCount_cons_notfull hx] at h
      omega

/-- A zero remainder changes nothing and places nothing. -/
theorem distRemainder_zero : ∀ rs : List OrderInfo, distRemainder 0 rs = (rs, 0)
  | [] => rfl
  | x :: xs => by
    by_cases hx : x.traded_quantity = x.required_quantity
    · rw [distRemainder_cons_full hx, distRemainder_zero xs]
    · exact distRemainder_cons_notfull_zero hx

/-- The remainder pass (`src/main.rs:400-409`) with a remainder no larger than
the number of unfilled recipients places exactly the remainder, one unit each
to the first `rem` unfilled recipients, preserving bounds and `Evolves`. -/
theorem distRemainder_spec :
    ∀ (rs : List OrderInfo) (rem : Nat), Bounded rs → rem ≤ notFullCount rs →
      (distRemainder rem rs).2 = rem ∧
      Bounded (distRemainder rem rs).1 ∧
      List.Forall₂ Evolves rs (distRemainder rem rs).1 ∧
      sumTraded (distRemainder rem rs).1 = sumTraded rs + rem ∧
      missingSum (distRemainder rem rs).1 + rem = missingSum rs
  | [], rem => by
    intro _ hr
    rw [notFullCount_nil] at hr
    interval_cases rem
    exact ⟨rfl, bounded_nil, List.Forall₂.nil, rfl, rfl⟩
  | x :: xs, rem => by
    intro hb hr
    rw [bounded_cons] at hb
    by_cases hx : x.traded_quantity = x.required_quantity
    · rw [notFullCount_cons_full hx] at hr
      obtain ⟨r1, r2, r3, r4, r5⟩ := distRemainder_spec xs rem hb.2 hr
      rw [distRemainder_cons_full hx]
      refine ⟨r1, ?_, List.Forall₂.cons (evolves_refl x) r3, ?_, ?_⟩
      · rw [bounded_cons]; exact ⟨hb.1, r2⟩
      · rw [sumTraded_cons, sumTraded_cons]; omega
      · rw [missingSum_cons, missingSum_cons]; omega
    · rw [notFullCount_cons_notfull hx] at hr
      rcases Nat.eq_zero_or_pos rem with hrem | hrem
      · subst hrem
        rw [distRemainder_zero]
        refine ⟨rfl, ?_, forall₂_evolves_refl _, by simp, by simp⟩
        rw [bounded_cons]; exact hb
      · obtain ⟨r1, r2, r3, r4, r5⟩ := distRemainder_spec xs (rem - 1) hb.2 (by omega)
        rw [distRemainder_cons_notfull_pos hx hrem]
        have hxlt : x.traded_quantity < x.required_quantity := by
          have := hb.1; omega
        refine ⟨by omega, ?_, ?_, ?_, ?_⟩
        · rw [bounded_cons]
          exact ⟨by simpa using hxlt, r2⟩
        · exact List.Forall₂.cons ⟨rfl, rfl, by simp, rfl⟩ r3
        · rw [sumTraded_cons, sumTraded_cons]
          simp only []
          omega
        · rw [missingSum_cons, missingSum_cons]
          simp only []
          omega

/-! ## The two regimes of `distribute` -/

/-- Unfolding `distribute` without its `let` bindings. -/
theorem distribute_eq (total : Nat) (rs : List OrderInfo) :
    distribute total rs =
      ((distRemainder (total - (distLoopF (total + 1) total rs 0).2)
          (distLoopF (total + 1) total rs 0).1).1,
        (distLoopF (total + 1) total rs 0).2 +
          (distRemainder (total - (distLoopF (total + 1) total rs 0).2)
            (distLoopF (total + 1) total rs 0).1).2) := rfl

/-- Rationing exactness (`src/main.rs:379-412`): when the pool does not exceed
the recipients' aggregate remaining need, `distribute` places exactly the pool,
preserving bounds and `Evolves`, growing the total traded quantity by the pool
and shrinking the total need by the pool. -/
theorem distribute_spec_le {total : Nat} {rs : List OrderInfo}
    (hb : Bounded rs) (hle : total ≤ missingSum rs) :
    (distribute total rs).2 = total ∧
    Bounded (distribute total rs).1 ∧
    List.Forall₂ Evolves rs (distribute total rs).1 ∧
    sumTraded (distribute total rs).1 = sumTraded rs + total ∧
    missingSum (distribute total rs).1 + total = missingSum rs := by
  obtain ⟨g1, g2, g3, g4, g5, g6, g7⟩ :=
    distLoopF_spec (total + 1) total rs 0 hb (Nat.zero_le _) (by omega)
  set p := distLoopF (total + 1) total rs 0 with hp
  rcases g7 with hnf | hlt
  · have hfull : ∀ x ∈ p.1, Full x := notFullCount_eq_zero_iff.mp hnf
    have hm0 : missingSum p.1 = 0 := (missingSum_eq_zero_iff g1).mpr hfull
    have hp2 : p.2 = total := by omega
    have h0 : total - p.2 = 0 := by omega
    simp only [distribute_eq, ← hp, h0, distRemainder_zero]
    exact ⟨by omega, g1, g2, by omega, by omega⟩
  · have hrem : total - p.2 ≤ notFullCount p.1 := by omega
    obtain ⟨r1, r2, r3, r4, r5⟩ := distRemainder_spec p.1 (total - p.2) g1 hrem
    simp only [distribute_eq, ← hp]
    exact ⟨by omega, r2, forall₂_evolves_trans g2 r3, by omega, by omega⟩

/-- Rationing overflow (`src/main.rs:379-412`): when the pool strictly exceeds
the recipients' aggregate remaining need, `distribute` fills every recipient
exactly to its required quantity and returns the aggregate need, not the
pool. -/
theorem distribute_spec_gt {total : Nat} {rs : List OrderInfo}
    (hb : Bounded rs) (hgt : missingSum rs < total) :
    (distribute total rs).2 = missingSum rs ∧
    (∀ x ∈ (distribute total rs).1, Full x) ∧
    Bounded (distribute total rs).1 ∧
    List.Forall₂ Evolves rs (distribute total rs).1 ∧
    sumTraded (distribute total rs).1 = sumTraded rs + missingSum rs := by
  obtain ⟨g1, g2, g3, g4, g5, g6, g7⟩ :=
    distLoopF_spec (total + 1) total rs 0 hb (Nat.zero_le _) (by omega)
  set p := distLoopF (total + 1) total rs 0 with hp
  have hnf : notFullCount p.1 = 0 := by
    rcases g7 with hnf | hlt
    · exact hnf
    · have := notFullCount_le_missingSum g1
      omega
  have hfull : ∀ x ∈ p.1, Full x := notFullCount_eq_zero_iff.mp hnf
  have hm0 : missingSum p.1 = 0 := (missingSum_eq_zero_iff g1).mpr hfull
  have hp2 : p.2 = missingSum rs := by omega
  have h0 : distRemainder (total - p.2) p.1 = (p.1, 0) := distRemainder_allFull p.1 hnf _
  simp only [distribute_eq, ← hp, h0]
  exact ⟨by omega, hfull, g1, g2, by omega⟩

/-! ## Correctness of `trade_loop` -/

/-- Unfolding `trade_loop` without its `let` bindings. -/
theorem trade_loop_eq (distrarray recvarray : List OrderInfo) (total : Nat) :
    trade_loop distrarray recvarray total =
      (if (distribute total recvarray).2 =
          (distribute (distribute total recvarray).2 distrarray).2
        then some ((distribute (distribute total recvarray).2 distrarray).1,
          (distribute total recvarray).1, (distribute total recvarray).2)
        else none) := rfl

/-- `trade_loop` as used by `run_trade`: the distributing side's remaining need
is exactly `total` and the receiving side can absorb at least `total`.  Both
in-source assertions hold, the distributing side ends fully filled, and both
sides grow by exactly `total` traded units. -/
theorem trade_loop_spec {distrarray recvarray : List OrderInfo} {total : Nat}
    (hbd : Bounded distrarray) (hbr : Bounded recvarray)
    (hd : missingSum distrarray = total) (hr : total ≤ missingSum recvarray) :
    ∃ d' r', trade_loop distrarray recvarray total = some (d', r', total) ∧
      Bounded d' ∧ Bounded r' ∧
      List.Forall₂ Evolves distrarray d' ∧ List.Forall₂ Evolves recvarray r' ∧
      sumTraded d' = sumTraded distrarray + total ∧
      sumTraded r' = sumTraded recvarray + total ∧
      missingSum r' + total = missingSum recvarray ∧
      (∀ x ∈ d', Full x) := by
  obtain ⟨a1, a2, a3, a4, a5⟩ := distribute_spec_le hbr hr
  obtain ⟨b1, b2, b3, b4, b5⟩ := distribute_spec_le hbd (Nat.le_of_eq hd.symm)
  refine ⟨(distribute total distrarray).1, (distribute total recvarray).1, ?_, b2, a2, b3,
    a3, b4, a4, by omega, ?_⟩
  · rw [trade_loop_eq, a1, b1, if_pos rfl]
  · have hm0 : missingSum (distribute total distrarray).1 = 0 := by omega
    exact (missingSum_eq_zero_iff b2).mp hm0

/-! ## Correctness of the `'main` matching loop -/

theorem bounded_append {a b : List OrderInfo} :
    Bounded (a ++ b) ↔ Bounded a ∧ Bounded b := by
  constructor
  · intro h
    exact ⟨fun x hx => h x (List.mem_append_left _ hx),
      fun x hx => h x (List.mem_append_right _ hx)⟩
  · rintro ⟨h1, h2⟩ x hx
    rcases List.mem_append.mp hx with h | h
    · exact h1 x h
    · exact h2 x h

theorem bounded_fillAll (rs : List OrderInfo) : Bounded (fillAll rs) := by
  intro x hx
  obtain ⟨y, _, hy⟩ := List.mem_map.mp hx
  rw [← hy]

theorem full_fillAll (rs : List OrderInfo) : ∀ x ∈ fillAll rs, Full x := by
  intro x hx
  obtain ⟨y, _, hy⟩ := List.mem_map.mp hx
  rw [← hy]
  rfl

theorem forall₂_evolves_fillAll {rs : List OrderInfo} (h : Bounded rs) :
    List.Forall₂ Evolves rs (fillAll rs) := by
  induction rs with
  | nil => exact List.Forall₂.nil
  | cons x xs ih =>
    rw [bounded_cons] at h
    exact List.Forall₂.cons ⟨rfl, rfl, h.1, rfl⟩ (ih h.2)

theorem sumTraded_fillAll {rs : List OrderInfo} (h : Bounded rs) :
    sumTraded (fillAll rs) = sumTraded rs + missingSum rs := by
  induction rs with
  | nil => rfl
  | cons x xs ih =>
    rw [bounded_cons] at h
    have hx := h.1
    have := ih h.2
    simp only [fillAll, List.map_cons, sumTraded_cons, missingSum_cons] at *
    omega

@[simp] theorem tiersMissing_nil : tiersMissing [] = 0 := rfl

@[simp] theorem tiersMissing_cons (t : List OrderInfo) (ts : List (List OrderInfo)) :
    tiersMissing (t :: ts) = missingSum t + tiersMissing ts := rfl

theorem mainLoopF_succ_gt {fuel : Nat} {ba sa : List OrderInfo}
    {bts sts : List (List OrderInfo)} {rb rs : List OrderInfo} {acc : Nat}
    {ba' sa' : List OrderInfo} {tt : Nat}
    (h : totalMissing ba < totalMissing sa)
    (ht : trade_loop ba sa (totalMissing ba) = some (ba', sa', tt))
    (htt : tt = totalMissing ba) :
    mainLoopF (fuel + 1) ba sa bts sts rb rs acc =
      (match bts with
        | b :: bts' => mainLoopF fuel b sa' bts' sts (rb ++ ba') rs (acc + tt)
        | [] => some (rb ++ ba', rs ++ sa', acc + tt)) := by
  subst htt
  simp [mainLoopF, h, ht]

theorem mainLoopF_succ_lt {fuel : Nat} {ba sa : List OrderInfo}
    {bts sts : List (List OrderInfo)} {rb rs : List OrderInfo} {acc : Nat}
    {ba' sa' : List OrderInfo} {tt : Nat}
    (h : totalMissing sa < totalMissing ba)
    (ht : trade_loop sa ba (totalMissing sa) = some (sa', ba', tt))
    (htt : tt = totalMissing sa) :
    mainLoopF (fuel + 1) ba sa bts sts rb rs acc =
      (match sts with
        | s :: sts' => mainLoopF fuel ba' s bts sts' rb (rs ++ sa') (acc + tt)
        | [] => some (rb ++ ba', rs ++ sa', acc + tt)) := by
  subst htt
  have h2 : ¬ totalMissing ba < totalMissing sa := by omega
  simp [mainLoopF, h, h2, ht]

theorem mainLoopF_succ_eq {fuel : Nat} {ba sa : List OrderInfo}
    {bts sts : List (List OrderInfo)} {rb rs : List OrderInfo} {acc : Nat}
    (h : totalMissing ba = totalMissing sa) :
    mainLoopF (fuel + 1) ba sa bts sts rb rs acc =
      (match bts with
        | [] => some (rb ++ fillAll ba, rs ++ fillAll sa, acc + totalMissing ba)
        | b :: bts' =>
          match sts with
          | [] => some (rb ++ fillAll ba, rs ++ fillAll sa, acc + totalMissing ba)
          | s :: sts' =>
            mainLoopF fuel b s bts' sts' (rb ++ fillAll ba) (rs ++ fillAll sa)
              (acc + totalMissing ba)) := by
  simp [mainLoopF, h]

/-- Main invariant of the `'main` matching loop of `run_trade`
(`src/main.rs:479-557`).  With bounded current tiers, bounded pending tiers and
enough fuel, the loop succeeds (no in-source assertion fires), appends its new
orders to the two result accumulators, preserves bounds, and every produced
order evolves from an order of a current or pending tier.  When all pending
tiers are freshly registered the returned total accounts exactly for the
growth of each side; if moreover the two sides' aggregate needs agree, every
produced order ends fully filled. -/
theorem mainLoopF_spec :
    ∀ (fuel : Nat) (ba sa : List OrderInfo) (bts sts : List (List OrderInfo))
      (rb rs : List OrderInfo) (acc : Nat),
      Bounded ba → Bounded sa →
      (∀ t ∈ bts, Bounded t) → (∀ t ∈ sts, Bounded t) →
      bts.length + sts.length < fuel →
      ∃ nb ns t,
        mainLoopF fuel ba sa bts sts rb rs acc = some (rb ++ nb, rs ++ ns, t) ∧
        Bounded nb ∧ Bounded ns ∧
        (∀ x ∈ nb, ∃ y, (y ∈ ba ∨ ∃ u ∈ bts, y ∈ u) ∧ Evolves y x) ∧
        (∀ x ∈ ns, ∃ y, (y ∈ sa ∨ ∃ u ∈ sts, y ∈ u) ∧ Evolves y x) ∧
        ((∀ u ∈ bts, ZeroTraded u) → (∀ u ∈ sts, ZeroTraded u) →
          sumTraded nb + acc = sumTraded ba + t ∧
          sumTraded ns + acc = sumTraded sa + t ∧
          (missingSum ba + tiersMissing bts = missingSum sa + tiersMissing sts →
            (∀ x ∈ nb, Full x) ∧ (∀ x ∈ ns, Full x))) := by
  intro fuel
  induction fuel with
  | zero =>
    intro ba sa bts sts rb rs acc _ _ _ _ hf
    omega
  | succ fuel ih =>
    intro ba sa bts sts rb rs acc hba hsa hbts hsts hf
    have htb : totalMissing ba = missingSum ba := totalMissing_eq_missingSum hba
    have hts : totalMissing sa = missingSum sa := totalMissing_eq_missingSum hsa
    rcases Nat.lt_trichotomy (totalMissing ba) (totalMissing sa) with hcmp | hcmp | hcmp
    · -- `Ordering::Greater`: the buy tier is exhausted, the sell tier receives
      obtain ⟨ba', sa', htl, d1, d2, d3, d4, d5, d6, d7, d8⟩ :=
        trade_loop_spec hba hsa htb.symm (by omega)
      cases bts with
      | nil =>
        refine ⟨ba', sa', acc + totalMissing ba, ?_, d1, d2, ?_, ?_, ?_⟩
        · exact mainLoopF_succ_gt hcmp htl rfl
        · intro x hx
          obtain ⟨y, hy, hev⟩ := forall₂_evolves_origin d3 x hx
          exact ⟨y, Or.inl hy, hev⟩
        · intro x hx
          obtain ⟨y, hy, hev⟩ := forall₂_evolves_origin d4 x hx
          exact ⟨y, Or.inl hy, hev⟩
        · intro _ _
          refine ⟨by omega, by omega, ?_⟩
          intro hEq
          exfalso
          simp only [tiersMissing_nil] at hEq
          omega
      | cons b bts' =>
        obtain ⟨nb₀, ns₀, t₀, ih1, ih2, ih3, ih4, ih5, ih6⟩ :=
          ih b sa' bts' sts (rb ++ ba') rs (acc + totalMissing ba)
            (hbts b (List.mem_cons_self _ _)) d2
            (fun t ht => hbts t (List.mem_cons_of_mem _ ht)) hsts
            (by simp at hf ⊢; omega)
        refine ⟨ba' ++ nb₀, ns₀, t₀, ?_, bounded_append.mpr ⟨d1, ih2⟩, ih3, ?_, ?_, ?_⟩
        · rw [mainLoopF_succ_gt hcmp htl rfl]
          show mainLoopF fuel b sa' bts' sts (rb ++ ba') rs (acc + totalMissing ba) =
            some (rb ++ (ba' ++ nb₀), rs ++ ns₀, t₀)
          rw [ih1, List.append_assoc]
        · intro x hx
          rcases List.mem_append.mp hx with hx' | hx'
          · obtain ⟨y, hy, hev⟩ := forall₂_evolves_origin d3 x hx'
            exact ⟨y, Or.inl hy, hev⟩
          · obtain ⟨y, hy, hev⟩ := ih4 x hx'
            rcases hy with hy | ⟨u, hu, hyu⟩
            · exact ⟨y, Or.inr ⟨b, List.mem_cons_self _ _, hy⟩, hev⟩
            · exact ⟨y, Or.inr ⟨u, List.mem_cons_of_mem _ hu, hyu⟩, hev⟩
        · intro x hx
          obtain ⟨y, hy, hev⟩ := ih5 x hx
          rcases hy with hy | ⟨u, hu, hyu⟩
          · obtain ⟨z, hz, hzev⟩ := forall₂_evolves_origin d4 y hy
            exact ⟨z, Or.inl hz, evolves_trans hzev hev⟩
          · exact ⟨y, Or.inr ⟨u, hu, hyu⟩, hev⟩
        · intro hZb hZs
          have hZb' : ∀ u ∈ bts', ZeroTraded u :=
            fun u hu => hZb u (List.mem_cons_of_mem _ hu)
          have hZbb : sumTraded b = 0 := zeroTraded_sumTraded (hZb b (List.mem_cons_self _ _))
          obtain ⟨s1, s2, s3⟩ := ih6 hZb' hZs
          refine ⟨?_, by omega, ?_⟩
          · rw [sumTraded_append]; omega
          · intro hEq
            simp only [tiersMissing_cons] at hEq
            obtain ⟨f1, f2⟩ := s3 (by omega)
            refine ⟨?_, f2⟩
            intro x hx
            rcases List.mem_append.mp hx with hx' | hx'
            · exact d8 x hx'
            · exact f1 x hx'
    · -- `Ordering::Equal`: both tiers fully satisfied
      have hfb := sumTraded_fillAll hba
      have hfs := sumTraded_fillAll hsa
      have hFb := forall₂_evolves_fillAll hba
      have hFs := forall₂_evolves_fillAll hsa
      have exit_case :
          ∃ nb ns t,
            some (rb ++ fillAll ba, rs ++ fillAll sa, acc + totalMissing ba) =
              some (rb ++ nb, rs ++ ns, t) ∧
            Bounded nb ∧ Bounded ns ∧
            (∀ x ∈ nb, ∃ y, (y ∈ ba ∨ ∃ u ∈ bts, y ∈ u) ∧ Evolves y x) ∧
            (∀ x ∈ ns, ∃ y, (y ∈ sa ∨ ∃ u ∈ sts, y ∈ u) ∧ Evolves y x) ∧
            ((∀ u ∈ bts, ZeroTraded u) → (∀ u ∈ sts, ZeroTraded u) →
              sumTraded nb + acc = sumTraded ba + t ∧
              sumTraded ns + acc = sumTraded sa + t ∧
              (missingSum ba + tiersMissing bts = missingSum sa + tiersMissing sts →
                (∀ x ∈ nb, Full x) ∧ (∀ x ∈ ns, Full x))) := by
        refine ⟨fillAll ba, fillAll sa, acc + totalMissing ba, rfl,
          bounded_fillAll ba, bounded_fillAll sa, ?_, ?_, ?_⟩
        · intro x hx
          obtain ⟨y, hy, hev⟩ := forall₂_evolves_origin hFb x hx
          exact ⟨y, Or.inl hy, hev⟩
        · intro x hx
          obtain ⟨y, hy, hev⟩ := forall₂_evolves_origin hFs x hx
          exact ⟨y, Or.inl hy, hev⟩
        · intro _ _
          exact ⟨by omega, by omega, fun _ => ⟨full_fillAll ba, full_fillAll sa⟩⟩
      cases bts with
      | nil =>
        obtain ⟨nb, ns, t, heq, rest⟩ := exit_case
        refine ⟨nb, ns, t, ?_, rest⟩
        rw [mainLoopF_succ_eq hcmp]
        exact heq
      | cons b bts' =>
        cases sts with
        | nil =>
          obtain ⟨nb, ns, t, heq, rest⟩ := exit_case
          refine ⟨nb, ns, t, ?_, rest⟩
          rw [mainLoopF_succ_eq hcmp]
          exact heq
        | cons s sts' =>
          obtain ⟨nb₀, ns₀, t₀, ih1, ih2, ih3, ih4, ih5, ih6⟩ :=
            ih b s bts' sts' (rb ++ fillAll ba) (rs ++ fillAll sa) (acc + totalMissing ba)
              (hbts b (List.mem_cons_self _ _)) (hsts s (List.mem_cons_self _ _))
              (fun t ht => hbts t (List.mem_cons_of_mem _ ht))
              (fun t ht => hsts t (List.mem_cons_of_mem _ ht))
              (by simp at hf ⊢; omega)
          refine ⟨fillAll ba ++ nb₀, fillAll sa ++ ns₀, t₀, ?_,
            bounded_append.mpr ⟨bounded_fillAll ba, ih2⟩,
            bounded_append.mpr ⟨bounded_fillAll sa, ih3⟩, ?_, ?_, ?_⟩
          · rw [mainLoopF_succ_eq hcmp]
            show mainLoopF fuel b s bts' sts' (rb ++ fillAll ba) (rs ++ fillAll sa)
                (acc + totalMissing ba) =
              some (rb ++ (fillAll ba ++ nb₀), rs ++ (fillAll sa ++ ns₀), t₀)
            rw [ih1]
            simp [List.append_assoc]
          · intro x hx
            rcases List.mem_append.mp hx with hx' | hx'
            · obtain ⟨y, hy, hev⟩ := forall₂_evolves_origin hFb x hx'
              exact ⟨y, Or.inl hy, hev⟩
            · obtain ⟨y, hy, hev⟩ := ih4 x hx'
              rcases hy with hy | ⟨u, hu, hyu⟩
              · exact ⟨y, Or.inr ⟨b, List.mem_cons_self _ _, hy⟩, hev⟩
              · exact ⟨y, Or.inr ⟨u, List.mem_cons_of_mem _ hu, hyu⟩, hev⟩
          · intro x hx
            rcases List.mem_append.mp hx with hx' | hx'
            · obtain ⟨y, hy, hev⟩ := forall₂_evolves_origin hFs x hx'
              exact ⟨y, Or.inl hy, hev⟩
            · obtain ⟨y, hy, hev⟩ := ih5 x hx'
              rcases hy with hy | ⟨u, hu, hyu⟩
              · exact ⟨y, Or.inr ⟨s, List.mem_cons_self _ _, hy⟩, hev⟩
              · exact ⟨y, Or.inr ⟨u, List.mem_cons_of_mem _ hu, hyu⟩, hev⟩
          · intro hZb hZs
            have hZb' : ∀ u ∈ bts', ZeroTraded u :=
              fun u hu => hZb u (List.mem_cons_of_mem _ hu)
            have hZs' : ∀ u ∈ sts', ZeroTraded u :=
              fun u hu => hZs u (List.mem_cons_of_mem _ hu)
            have hZbb : sumTraded b = 0 := zeroTraded_sumTraded (hZb b (List.mem_cons_self _ _))
            have hZss : sumTraded s = 0 := zeroTraded_sumTraded (hZs s (List.mem_cons_self _ _))
            obtain ⟨s1, s2, s3⟩ := ih6 hZb' hZs'
            refine ⟨?_, ?_, ?_⟩
            · rw [sumTraded_append]; omega
            · rw [sumTraded_append]; omega
            · intro hEq
              simp only [tiersMissing_cons] at hEq
              obtain ⟨f1, f2⟩ := s3 (by omega)
              constructor
              · intro x hx
                rcases List.mem_append.mp hx with hx' | hx'
                · exact full_fillAll ba x hx'
                · exact f1 x hx'
              · intro x hx
                rcases List.mem_append.mp hx with hx' | hx'
                · exact full_fillAll sa x hx'
                · exact f2 x hx'
    · -- `Ordering::Less`: the sell tier is exhausted, the buy tier receives
      obtain ⟨sa', ba', htl, d1, d2, d3, d4, d5, d6, d7, d8⟩ :=
        trade_loop_spec hsa hba hts.symm (by omega)
      cases sts with
      | nil =>
        refine ⟨ba', sa', acc + totalMissing sa, ?_, d2, d1, ?_, ?_, ?_⟩
        · exact mainLoopF_succ_lt hcmp htl rfl
        · intro x hx
          obtain ⟨y, hy, hev⟩ := forall₂_evolves_origin d4 x hx
          exact ⟨y, Or.inl hy, hev⟩
        · intro x hx
          obtain ⟨y, hy, hev⟩ := forall₂_evolves_origin d3 x hx
          exact ⟨y, Or.inl hy, hev⟩
        · intro _ _
          refine ⟨by omega, by omega, ?_⟩
          intro hEq
          exfalso
          simp only [tiersMissing_nil] at hEq
          omega
      | cons s sts' =>
        obtain ⟨nb₀, ns₀, t₀, ih1, ih2, ih3, ih4, ih5, ih6⟩ :=
          ih ba' s bts sts' rb (rs ++ sa') (acc + totalMissing sa)
            d2 (hsts s (List.mem_cons_self _ _)) hbts
            (fun t ht => hsts t (List.mem_cons_of_mem _ ht))
            (by simp at hf ⊢; omega)
        refine ⟨nb₀, sa' ++ ns₀, t₀, ?_, ih2, bounded_append.mpr ⟨d1, ih3⟩, ?_, ?_, ?_⟩
        · rw [mainLoopF_succ_lt hcmp htl rfl]
          show mainLoopF fuel ba' s bts sts' rb (rs ++ sa') (acc + totalMissing sa) =
            some (rb ++ nb₀, rs ++ (sa' ++ ns₀), t₀)
          rw [ih1, List.append_assoc]
        · intro x hx
          obtain ⟨y, hy, hev⟩ := ih4 x hx
          rcases hy with hy | ⟨u, hu, hyu⟩
          · obtain ⟨z, hz, hzev⟩ := forall₂_evolves_origin d4 y hy
            exact ⟨z, Or.inl hz, evolves_trans hzev hev⟩
          · exact ⟨y, Or.inr ⟨u, hu, hyu⟩, hev⟩
        · intro x hx
          rcases List.mem_append.mp hx with hx' | hx'
          · obtain ⟨y, hy, hev⟩ := forall₂_evolves_origin d3 x hx'
            exact ⟨y, Or.inl hy, hev⟩
          · obtain ⟨y, hy, hev⟩ := ih5 x hx'
            rcases hy with hy | ⟨u, hu, hyu⟩
            · exact ⟨y, Or.inr ⟨s, List.mem_cons_self _ _, hy⟩, hev⟩
            · exact ⟨y, Or.inr ⟨u, List.mem_cons_of_mem _ hu, hyu⟩, hev⟩
        · intro hZb hZs
          have hZs' : ∀ u ∈ sts', ZeroTraded u :=
            fun u hu => hZs u (List.mem_cons_of_mem _ hu)
          have hZss : sumTraded s = 0 := zeroTraded_sumTraded (hZs s (List.mem_cons_self _ _))
          obtain ⟨s1, s2, s3⟩ := ih6 hZb hZs'
          refine ⟨by omega, ?_, ?_⟩
          · rw [sumTraded_append]; omega
          · intro hEq
            simp only [tiersMissing_cons] at hEq
            obtain ⟨f1, f2⟩ := s3 (by omega)
            refine ⟨f1, ?_⟩
            intro x hx
            rcases List.mem_append.mp hx with hx' | hx'
            · exact d8 x hx'
            · exact f2 x hx'

/-! ## From tierings to the book -/

theorem perm_sumTraded {a b : List OrderInfo} (h : List.Perm a b) :
    sumTraded a = sumTraded b := by
  unfold sumTraded
  exact (h.map fun x => x.traded_quantity).sum_eq

theorem perm_sumRequired {a b : List OrderInfo} (h : List.Perm a b) :
    sumRequired a = sumRequired b := by
  unfold sumRequired
  exact (h.map fun x => x.required_quantity).sum_eq

theorem perm_missingSum {a b : List OrderInfo} (h : List.Perm a b) :
    missingSum a = missingSum b := by
  unfold missingSum
  exact (h.map fun x => x.required_quantity - x.traded_quantity).sum_eq

theorem tiersMissing_eq_flatten :
    ∀ ts : List (List OrderInfo), tiersMissing ts = missingSum ts.flatten
  | [] => rfl
  | t :: ts => by
    rw [tiersMissing_cons, List.flatten_cons, missingSum_append,
      tiersMissing_eq_flatten ts]

/-- Any member of any tier of a tiering is a member of the underlying order
sequence. -/
theorem isTiering_mem {bts : List (List OrderInfo)} {orders : List OrderInfo}
    (h : IsTiering bts orders) {t : List OrderInfo} {x : OrderInfo}
    (ht : t ∈ bts) (hx : x ∈ t) : x ∈ orders :=
  h.2.mem_iff.mp (List.mem_flatten.mpr ⟨t, ht, hx⟩)

theorem isTiering_zeroTraded {bts : List (List OrderInfo)} {orders : List OrderInfo}
    (h : IsTiering bts orders) (h0 : ZeroTraded orders) :
    ∀ t ∈ bts, ZeroTraded t :=
  fun _t ht x hx => h0 x (isTiering_mem h ht hx)

theorem isTiering_bounded {bts : List (List OrderInfo)} {orders : List OrderInfo}
    (h : IsTiering bts orders) (hb : Bounded orders) :
    ∀ t ∈ bts, Bounded t :=
  fun _t ht x hx => hb x (isTiering_mem h ht hx)

/-- A tiering of a nonempty order sequence is itself nonempty. -/
theorem isTiering_ne_nil {bts : List (List OrderInfo)} {orders : List OrderInfo}
    (h : IsTiering bts orders) (hne : orders ≠ []) : bts ≠ [] := by
  intro hnil
  subst hnil
  exact hne (h.2.symm.eq_nil.symm ▸ rfl)

theorem sumRequired_zero_full {rs : List OrderInfo}
    (h : sumRequired rs = 0) (h0 : ZeroTraded rs) : ∀ x ∈ rs, Full x := by
  induction rs with
  | nil => intro x hx; cases hx
  | cons y ys ih =>
    rw [sumRequired_cons] at h
    intro x hx
    rcases List.mem_cons.mp hx with hxy | hxy
    · subst hxy
      have := h0 x (List.mem_cons_self _ _)
      unfold Full
      omega
    · exact ih (by omega) (fun z hz => h0 z (List.mem_cons_of_mem _ hz)) x hxy

/-- `run_trade` on a book with an empty side returns `Ok(0)` and the untouched
book (`src/main.rs:459-461`). -/
theorem run_trade_eq_of_empty (m : TestMarket) (bts sts : List (List OrderInfo))
    (h : m.buy_orders = [] ∨ m.sell_orders = []) :
    run_trade m bts sts = some (m, 0) := by
  simp [run_trade, h]

/-- `run_trade` on a book with two nonempty sides delegates to the `'main`
loop on the first tiers, wrapping its result back into the market. -/
theorem run_trade_eq_of_main {m : TestMarket} {b s : List OrderInfo}
    {bts' sts' : List (List OrderInfo)} {fb fs : List OrderInfo} {t : Nat}
    (hbne : m.buy_orders ≠ []) (hsne : m.sell_orders ≠ [])
    (h : mainLoopF (bts'.length + sts'.length + 1) b s bts' sts' [] [] 0 =
      some (fb, fs, t)) :
    run_trade m (b :: bts') (s :: sts') =
      some (⟨m.good_uid, m.price_per_unit, fb, fs⟩, t) := by
  have hne : ¬ (m.buy_orders = [] ∨ m.sell_orders = []) := by tauto
  simp only [run_trade, if_neg hne]
  rw [h]

/-- C1 — Conservation of traded quantity.  For a book of freshly registered
orders (`traded_quantity = 0`, as `register_order` creates them) and any
prestige tiering of its two sides, `run_trade` succeeds and its returned total
equals the sum of the traded quantities over the resulting sell orders, and
equally over the resulting buy orders.  Since every order starts at zero and
orders dropped by the loop are never touched beforehand, these sums are
exactly the sums of the per-order increases in `traded_quantity` caused by the
call, on each side. -/
theorem run_trade_conserves_quantity (m : TestMarket) (bts sts : List (List OrderInfo))
    (hbt : IsTiering bts m.buy_orders) (hst : IsTiering sts m.sell_orders)
    (hb0 : ZeroTraded m.buy_orders) (hs0 : ZeroTraded m.sell_orders) :
    ∃ m' total, run_trade m bts sts = some (m', total) ∧
      total = sumTraded m'.buy_orders ∧ total = sumTraded m'.sell_orders := by
  by_cases hemp : m.buy_orders = [] ∨ m.sell_orders = []
  · refine ⟨m, 0, run_trade_eq_of_empty m bts sts hemp, ?_, ?_⟩
    · rw [zeroTraded_sumTraded hb0]
    · rw [zeroTraded_sumTraded hs0]
  · push_neg at hemp
    obtain ⟨hbne, hsne⟩ := hemp
    cases bts with
    | nil => exact absurd rfl (isTiering_ne_nil hbt hbne)
    | cons b bts' =>
    cases sts with
    | nil => exact absurd rfl (isTiering_ne_nil hst hsne)
    | cons s sts' =>
    have hZb : ∀ u ∈ b :: bts', ZeroTraded u := isTiering_zeroTraded hbt hb0
    have hZs : ∀ u ∈ s :: sts', ZeroTraded u := isTiering_zeroTraded hst hs0
    obtain ⟨nb, ns, t, heq, _, _, _, _, hcond⟩ :=
      mainLoopF_spec (bts'.length + sts'.length + 1) b s bts' sts' [] [] 0
        (zeroTraded_bounded (hZb b (List.mem_cons_self _ _)))
        (zeroTraded_bounded (hZs s (List.mem_cons_self _ _)))
        (fun u hu => zeroTraded_bounded (hZb u (List.mem_cons_of_mem _ hu)))
        (fun u hu => zeroTraded_bounded (hZs u (List.mem_cons_of_mem _ hu)))
        (by omega)
    obtain ⟨s1, s2, _⟩ :=
      hcond (fun u hu => hZb u (List.mem_cons_of_mem _ hu))
        (fun u hu => hZs u (List.mem_cons_of_mem _ hu))
    have hzb : sumTraded b = 0 := zeroTraded_sumTraded (hZb b (List.mem_cons_self _ _))
    have hzs : sumTraded s = 0 := zeroTraded_sumTraded (hZs s (List.mem_cons_self _ _))
    refine ⟨_, t, run_trade_eq_of_main hbne hsne heq, ?_, ?_⟩
    · show t = sumTraded ([] ++ nb)
      rw [List.nil_append]
      omega
    · show t = sumTraded ([] ++ ns)
      rw [List.nil_append]
      omega

/-- C7 — No trade on an empty side.  If either the buy or the sell sequence is
empty, `run_trade` returns total `0` and the book itself, unchanged: both
order sequences — and hence each order's `traded_quantity` — are exactly as
before the call. -/
theorem run_trade_empty_side_no_trade (m : TestMarket) (bts sts : List (List OrderInfo))
    (h : m.buy_orders = [] ∨ m.sell_orders = []) :
    run_trade m bts sts = some (m, 0) :=
  run_trade_eq_of_empty m bts sts h

/-- C6 — Full clearing on equal aggregate demand and supply.  For a freshly
registered book whose total required buy quantity equals the total required
sell quantity, `run_trade` succeeds and every order remaining on either side
of the book is fully filled. -/
theorem run_trade_full_clearing (m : TestMarket) (bts sts : List (List OrderInfo))
    (hbt : IsTiering bts m.buy_orders) (hst : IsTiering sts m.sell_orders)
    (hb0 : ZeroTraded m.buy_orders) (hs0 : ZeroTraded m.sell_orders)
    (hreq : sumRequired m.buy_orders = sumRequired m.sell_orders) :
    ∃ m' total, run_trade m bts sts = some (m', total) ∧
      (∀ x ∈ m'.buy_orders, Full x) ∧ (∀ x ∈ m'.sell_orders, Full x) := by
  by_cases hemp : m.buy_orders = [] ∨ m.sell_orders = []
  · refine ⟨m, 0, run_trade_eq_of_empty m bts sts hemp, ?_, ?_⟩
    · rcases hemp with h | h
      · rw [h]; intro x hx; cases hx
      · rw [h, sumRequired_nil] at hreq
        exact sumRequired_zero_full hreq hb0
    · rcases hemp with h | h
      · rw [h, sumRequired_nil] at hreq
        exact sumRequired_zero_full hreq.symm hs0
      · rw [h]; intro x hx; cases hx
  · push_neg at hemp
    obtain ⟨hbne, hsne⟩ := hemp
    cases bts with
    | nil => exact absurd rfl (isTiering_ne_nil hbt hbne)
    | cons b bts' =>
    cases sts with
    | nil => exact absurd rfl (isTiering_ne_nil hst hsne)
    | cons s sts' =>
    have hZb : ∀ u ∈ b :: bts', ZeroTraded u := isTiering_zeroTraded hbt hb0
    have hZs : ∀ u ∈ s :: sts', ZeroTraded u := isTiering_zeroTraded hst hs0
    obtain ⟨nb, ns, t, heq, _, _, _, _, hcond⟩ :=
      mainLoopF_spec (bts'.length + sts'.length + 1) b s bts' sts' [] [] 0
        (zeroTraded_bounded (hZb b (List.mem_cons_self _ _)))
        (zeroTraded_bounded (hZs s (List.mem_cons_self _ _)))
        (fun u hu => zeroTraded_bounded (hZb u (List.mem_cons_of_mem _ hu)))
        (fun u hu => zeroTraded_bounded (hZs u (List.mem_cons_of_mem _ hu)))
        (by omega)
    obtain ⟨_, _, s3⟩ :=
      hcond (fun u hu => hZb u (List.mem_cons_of_mem _ hu))
        (fun u hu => hZs u (List.mem_cons_of_mem _ hu))
    have hbm : missingSum b + tiersMissing bts' = missingSum m.buy_orders := by
      have h1 : tiersMissing (b :: bts') = missingSum (b :: bts').flatten :=
        tiersMissing_eq_flatten _
      have h2 : missingSum (b :: bts').flatten = missingSum m.buy_orders :=
        perm_missingSum hbt.2
      rw [tiersMissing_cons] at h1
      omega
    have hsm : missingSum s + tiersMissing sts' = missingSum m.sell_orders := by
      have h1 : tiersMissing (s :: sts') = missingSum (s :: sts').flatten :=
        tiersMissing_eq_flatten _
      have h2 : missingSum (s :: sts').flatten = missingSum m.sell_orders :=
        perm_missingSum hst.2
      rw [tiersMissing_cons] at h1
      omega
    have hmb : missingSum m.buy_orders = sumRequired m.buy_orders :=
      zeroTraded_missingSum hb0
    have hms : missingSum m.sell_orders = sumRequired m.sell_orders :=
      zeroTraded_missingSum hs0
    obtain ⟨f1, f2⟩ := s3 (by omega)
    refine ⟨_, t, run_trade_eq_of_main hbne hsne heq, ?_, ?_⟩
    · show ∀ x ∈ [] ++ nb, Full x
      rw [List.nil_append]
      exact f1
    · show ∀ x ∈ [] ++ ns, Full x
      rw [List.nil_append]
      exact f2

/-! ## Decidability instances, for concrete evaluation -/

instance (rs : List OrderInfo) : Decidable (Bounded rs) :=
  show Decidable (∀ x ∈ rs, x.traded_quantity ≤ x.required_quantity) from inferInstance

instance (rs : List OrderInfo) : Decidable (ZeroTraded rs) :=
  show Decidable (∀ x ∈ rs, x.traded_quantity = 0) from inferInstance

instance (x : OrderInfo) : Decidable (Full x) :=
  show Decidable (x.traded_quantity = x.required_quantity) from inferInstance

instance (tiers : List (List OrderInfo)) (orders : List OrderInfo) :
    Decidable (IsTiering tiers orders) :=
  show Decidable ((∀ t ∈ tiers, t ≠ []) ∧ List.Perm tiers.flatten orders) from
    inferInstance

/-! ## Claims about `distribute` alone -/

/-- C3 — Rationing exactness.  For recipients each within bounds and a pool
`total_to_dist` not exceeding their aggregate remaining need
`Σ (required − traded)`, `distribute` returns exactly the pool, and afterwards
no recipient's `traded_quantity` exceeds its `required_quantity`. -/
theorem distribute_rationing_exact {total_to_dist : Nat} {recvarray : List OrderInfo}
    (hb : Bounded recvarray) (hle : total_to_dist ≤ missingSum recvarray) :
    (distribute total_to_dist recvarray).2 = total_to_dist ∧
    Bounded (distribute total_to_dist recvarray).1 := by
  obtain ⟨h1, h2, _⟩ := distribute_spec_le hb hle
  exact ⟨h1, h2⟩

/-- Witness for C3 on a concrete input: two recipients needing 10 and 5, a
pool of 7. -/
theorem distribute_rationing_exact_witness :
    (distribute 7 [⟨0, 10, 0, 0⟩, ⟨1, 5, 0, 0⟩]).2 = 7 ∧
    Bounded (distribute 7 [⟨0, 10, 0, 0⟩, ⟨1, 5, 0, 0⟩]).1 :=
  distribute_rationing_exact (by decide) (by decide)

/-- C10 — Rationing with an oversized pool.  For recipients each within bounds
and a pool strictly greater than their aggregate remaining need, `distribute`
fills every recipient exactly to its required quantity and returns the
aggregate remaining need, not the pool: it never over-fills and never places
more units than the recipients can absorb. -/
theorem distribute_overflow_fills_all {total_to_dist : Nat} {recvarray : List OrderInfo}
    (hb : Bounded recvarray) (hgt : missingSum recvarray < total_to_dist) :
    (distribute total_to_dist recvarray).2 = missingSum recvarray ∧
    (∀ x ∈ (distribute total_to_dist recvarray).1, Full x) ∧
    Bounded (distribute total_to_dist recvarray).1 := by
  obtain ⟨h1, h2, h3, _⟩ := distribute_spec_gt hb hgt
  exact ⟨h1, h2, h3⟩

/-- Witness for C10 on a concrete input: two recipients needing 3 and 4, a
pool of 100. -/
theorem distribute_overflow_fills_all_witness :
    (distribute 100 [⟨0, 3, 0, 0⟩, ⟨1, 4, 0, 0⟩]).2 =
      missingSum [⟨0, 3, 0, 0⟩, ⟨1, 4, 0, 0⟩] ∧
    (∀ x ∈ (distribute 100 [⟨0, 3, 0, 0⟩, ⟨1, 4, 0, 0⟩]).1, Full x) ∧
    Bounded (distribute 100 [⟨0, 3, 0, 0⟩, ⟨1, 4, 0, 0⟩]).1 :=
  distribute_overflow_fills_all (by decide) (by decide)

/-! ## Termination: the fuelled loops stabilize at the source's exit
conditions -/

theorem distLoopF_fuel_eq :
    ∀ (f1 f2 total : Nat) (rs : List OrderInfo) (dfn : Nat),
      total - dfn < f1 → total - dfn < f2 →
      distLoopF f1 total rs dfn = distLoopF f2 total rs dfn := by
  intro f1
  induction f1 with
  | zero =>
    intro f2 total rs dfn h1 _
    omega
  | succ f1 ih =>
    intro f2 total rs dfn h1 h2
    cases f2 with
    | zero => omega
    | succ f2 =>
      by_cases hnf : notFullCount rs = 0
      · rw [distLoopF_succ_nf0 hnf, distLoopF_succ_nf0 hnf]
      · by_cases hchunk : (total - dfn) / notFullCount rs = 0
        · rw [distLoopF_succ_chunk0 hnf hchunk, distLoopF_succ_chunk0 hnf hchunk]
        · by_cases hp2 : (distPass ((total - dfn) / notFullCount rs) rs).2 = 0
          · rw [distLoopF_succ_pass0 hnf hchunk hp2, distLoopF_succ_pass0 hnf hchunk hp2]
          · rw [distLoopF_succ_rec hnf hchunk hp2, distLoopF_succ_rec hnf hchunk hp2]
            have hd : total - dfn ≠ 0 := by
              intro h0
              apply hchunk
              rw [h0]
              exact Nat.zero_div _
            exact ih f2 total _ _ (by omega) (by omega)

theorem mainLoopF_succ_gt_none {fuel : Nat} {ba sa : List OrderInfo}
    {bts sts : List (List OrderInfo)} {rb rs : List OrderInfo} {acc : Nat}
    (h : totalMissing ba < totalMissing sa)
    (ht : trade_loop ba sa (totalMissing ba) = none) :
    mainLoopF (fuel + 1) ba sa bts sts rb rs acc = none := by
  simp [mainLoopF, h, ht]

theorem mainLoopF_succ_gt_badtt {fuel : Nat} {ba sa : List OrderInfo}
    {bts sts : List (List OrderInfo)} {rb rs : List OrderInfo} {acc : Nat}
    {ba' sa' : List OrderInfo} {tt : Nat}
    (h : totalMissing ba < totalMissing sa)
    (ht : trade_loop ba sa (totalMissing ba) = some (ba', sa', tt))
    (htt : tt ≠ totalMissing ba) :
    mainLoopF (fuel + 1) ba sa bts sts rb rs acc = none := by
  simp [mainLoopF, h, ht, htt]

theorem mainLoopF_succ_lt_none {fuel : Nat} {ba sa : List OrderInfo}
    {bts sts : List (List OrderInfo)} {rb rs : List OrderInfo} {acc : Nat}
    (h : totalMissing sa < totalMissing ba)
    (ht : trade_loop sa ba (totalMissing sa) = none) :
    mainLoopF (fuel + 1) ba sa bts sts rb rs acc = none := by
  have h2 : ¬ totalMissing ba < totalMissing sa := by omega
  simp [mainLoopF, h, h2, ht]

theorem mainLoopF_succ_lt_badtt {fuel : Nat} {ba sa : List OrderInfo}
    {bts sts : List (List OrderInfo)} {rb rs : List OrderInfo} {acc : Nat}
    {ba' sa' : List OrderInfo} {tt : Nat}
    (h : totalMissing sa < totalMissing ba)
    (ht : trade_loop sa ba (totalMissing sa) = some (sa', ba', tt))
    (htt : tt ≠ totalMissing sa) :
    mainLoopF (fuel + 1) ba sa bts sts rb rs acc = none := by
  have h2 : ¬ totalMissing ba < totalMissing sa := by omega
  simp [mainLoopF, h, h2, ht, htt]

theorem mainLoopF_fuel_eq :
    ∀ (f1 f2 : Nat) (ba sa : List OrderInfo) (bts sts : List (List OrderInfo))
      (rb rs : List OrderInfo) (acc : Nat),
      bts.length + sts.length < f1 → bts.length + sts.length < f2 →
      mainLoopF f1 ba sa bts sts rb rs acc = mainLoopF f2 ba sa bts sts rb rs acc := by
  intro f1
  induction f1 with
  | zero =>
    intro f2 ba sa bts sts rb rs acc h1 _
    omega
  | succ f1 ih =>
    intro f2 ba sa bts sts rb rs acc h1 h2
    cases f2 with
    | zero => omega
    | succ f2 =>
      rcases Nat.lt_trichotomy (totalMissing ba) (totalMissing sa) with hcmp | hcmp | hcmp
      · rcases htl : trade_loop ba sa (totalMissing ba) with _ | ⟨ba', sa', tt⟩
        · rw [mainLoopF_succ_gt_none hcmp htl, mainLoopF_succ_gt_none hcmp htl]
        · by_cases htt : tt = totalMissing ba
          · rw [mainLoopF_succ_gt hcmp htl htt, mainLoopF_succ_gt hcmp htl htt]
            cases bts with
            | nil => rfl
            | cons b bts' =>
              exact ih f2 b sa' bts' sts (rb ++ ba') rs (acc + tt)
                (by simp at h1; omega) (by simp at h2; omega)
          · rw [mainLoopF_succ_gt_badtt hcmp htl htt,
              mainLoopF_succ_gt_badtt hcmp htl htt]
      · rw [mainLoopF_succ_eq hcmp, mainLoopF_succ_eq hcmp]
        cases bts with
        | nil => rfl
        | cons b bts' =>
          cases sts with
          | nil => rfl
          | cons s sts' =>
            exact ih f2 b s bts' sts' (rb ++ fillAll ba) (rs ++ fillAll sa)
              (acc + totalMissing ba) (by simp at h1; omega) (by simp at h2; omega)
      · rcases htl : trade_loop sa ba (totalMissing sa) with _ | ⟨sa', ba', tt⟩
        · rw [mainLoopF_succ_lt_none hcmp htl, mainLoopF_succ_lt_none hcmp htl]
        · by_cases htt : tt = totalMissing sa
          · rw [mainLoopF_succ_lt hcmp htl htt, mainLoopF_succ_lt hcmp htl htt]
            cases sts with
            | nil => rfl
            | cons s sts' =>
              exact ih f2 ba' s bts sts' rb (rs ++ sa') (acc + tt)
                (by simp at h1; omega) (by simp at h2; omega)
          · rw [mainLoopF_succ_lt_badtt hcmp htl htt,
              mainLoopF_succ_lt_badtt hcmp htl htt]

/-- C9 — Termination.  Both source `loop`s reach one of their exit conditions
within an explicit bound on the number of iterations: the equal-chunk loop of
`distribute` stabilizes after at most `total - dist_for_now + 1` rounds (its
running total strictly grows while it continues), and the `'main` loop of
`run_trade` stabilizes after at most one iteration per remaining prestige
tier.  Consequently `distribute` and `run_trade`, which run the loops at
exactly these fuel bounds, compute the Rust loops' results for every finite
input. -/
theorem clearing_loops_terminate :
    (∀ (fuel total : Nat) (rs : List OrderInfo) (dfn : Nat),
      total - dfn < fuel →
      distLoopF fuel total rs dfn = distLoopF (total - dfn + 1) total rs dfn) ∧
    (∀ (fuel : Nat) (ba sa : List OrderInfo) (bts sts : List (List OrderInfo))
      (rb rs : List OrderInfo) (acc : Nat),
      bts.length + sts.length < fuel →
      mainLoopF fuel ba sa bts sts rb rs acc =
        mainLoopF (bts.length + sts.length + 1) ba sa bts sts rb rs acc) :=
  ⟨fun fuel total rs dfn h =>
    distLoopF_fuel_eq fuel (total - dfn + 1) total rs dfn h (by omega),
   fun fuel ba sa bts sts rb rs acc h =>
    mainLoopF_fuel_eq fuel (bts.length + sts.length + 1) ba sa bts sts rb rs acc h
      (by omega)⟩

/-- Witness for C9 on concrete inputs: a large fuel computes the same result
as the stated bound. -/
theorem clearing_loops_terminate_witness :
    distLoopF 50 7 [⟨0, 5, 0, 0⟩, ⟨1, 9, 2, 0⟩] 0 =
      distLoopF (7 - 0 + 1) 7 [⟨0, 5, 0, 0⟩, ⟨1, 9, 2, 0⟩] 0 ∧
    mainLoopF 50 [⟨0, 4, 0, 0⟩] [⟨1, 6, 0, 0⟩] [[⟨2, 2, 0, 1⟩]] [] [] [] 0 =
      mainLoopF (([[⟨2, 2, 0, 1⟩]] : List (List OrderInfo)).length +
          ([] : List (List OrderInfo)).length + 1)
        [⟨0, 4, 0, 0⟩] [⟨1, 6, 0, 0⟩] [[⟨2, 2, 0, 1⟩]] [] [] [] 0 :=
  ⟨clearing_loops_terminate.1 50 7 [⟨0, 5, 0, 0⟩, ⟨1, 9, 2, 0⟩] 0 (by omega),
   clearing_loops_terminate.2 50 [⟨0, 4, 0, 0⟩] [⟨1, 6, 0, 0⟩] [[⟨2, 2, 0, 1⟩]] [] [] [] 0
     (by simp)⟩

/-! ## Retrieval -/

/-- Successful lookup: when some order on either side carries the identifier,
`retrieve_order_result` returns `some` result describing a matching order:
its side, its current `traded_quantity`, and `traded_quantity * price_per_unit`
as the total cost. -/
theorem retrieve_found {m : TestMarket} {uuid : Nat}
    (h : ∃ x ∈ m.buy_orders ++ m.sell_orders, x.uuid = uuid) :
    ∃ x r, retrieve_order_result m uuid = some r ∧ x.uuid = uuid ∧
      ((x ∈ m.buy_orders ∧ r.ordertype = OrderType.Buy) ∨
        (x ∈ m.sell_orders ∧ r.ordertype = OrderType.Sell)) ∧
      r.traded_quantity = x.traded_quantity ∧
      r.total_cost = (x.traded_quantity : Rat) * m.price_per_unit := by
  cases hfb : m.buy_orders.find? fun x => x.uuid == uuid with
  | some x =>
    refine ⟨x, ⟨OrderType.Buy, x.traded_quantity,
      (x.traded_quantity : Rat) * m.price_per_unit⟩, ?_, ?_, ?_, rfl, rfl⟩
    · simp only [retrieve_order_result, hfb]
    · have := List.find?_some hfb
      simpa using this
    · exact Or.inl ⟨List.mem_of_find?_eq_some hfb, rfl⟩
  | none =>
    cases hfs : m.sell_orders.find? fun x => x.uuid == uuid with
    | some x =>
      refine ⟨x, ⟨OrderType.Sell, x.traded_quantity,
        (x.traded_quantity : Rat) * m.price_per_unit⟩, ?_, ?_, ?_, rfl, rfl⟩
      · simp only [retrieve_order_result, hfb, hfs]
      · have := List.find?_some hfs
        simpa using this
      · exact Or.inr ⟨List.mem_of_find?_eq_some hfs, rfl⟩
    | none =>
      exfalso
      obtain ⟨x, hx, hxu⟩ := h
      rcases List.mem_append.mp hx with hx' | hx'
      · have := List.find?_eq_none.mp hfb x hx'
        simp [hxu] at this
      · have := List.find?_eq_none.mp hfs x hx'
        simp [hxu] at this

/-- Failed lookup: when no order on either side carries the identifier, the
result is `NotFound` (`none`). -/
theorem retrieve_notfound {m : TestMarket} {uuid : Nat}
    (h : ∀ x ∈ m.buy_orders ++ m.sell_orders, x.uuid ≠ uuid) :
    retrieve_order_result m uuid = none := by
  have hfb : m.buy_orders.find? (fun x => x.uuid == uuid) = none := by
    rw [List.find?_eq_none]
    intro x hx
    simp [h x (List.mem_append_left _ hx)]
  have hfs : m.sell_orders.find? (fun x => x.uuid == uuid) = none := by
    rw [List.find?_eq_none]
    intro x hx
    simp [h x (List.mem_append_right _ hx)]
  simp only [retrieve_order_result, hfb, hfs]

/-- C8 — Retrieval semantics.  For every book and identifier:
if an order with that identifier is present on either side, retrieval returns
`some` result carrying a matching order's side, its current `traded_quantity`,
and a total cost equal to `traded_quantity` times the book's unit price;
if no such order is present, retrieval returns `NotFound` (`none`);
and after `clear_state` every retrieval returns `NotFound`. -/
theorem retrieve_order_result_spec (m : TestMarket) (uuid : Nat) :
    ((∃ x ∈ m.buy_orders ++ m.sell_orders, x.uuid = uuid) →
      ∃ x r, retrieve_order_result m uuid = some r ∧ x.uuid = uuid ∧
        ((x ∈ m.buy_orders ∧ r.ordertype = OrderType.Buy) ∨
          (x ∈ m.sell_orders ∧ r.ordertype = OrderType.Sell)) ∧
        r.traded_quantity = x.traded_quantity ∧
        r.total_cost = (x.traded_quantity : Rat) * m.price_per_unit) ∧
    ((∀ x ∈ m.buy_orders ++ m.sell_orders, x.uuid ≠ uuid) →
      retrieve_order_result m uuid = none) ∧
    (∀ u : Nat, retrieve_order_result (clear_state m) u = none) :=
  ⟨retrieve_found, retrieve_notfound, fun _ => rfl⟩

/-- Concrete book for the retrieval claims: one buy order (id 5, filled 3 of
10) and one sell order (id 7, filled 4 of 4), unit price 2. -/
def mRetr : TestMarket :=
  ⟨0, 2, [⟨5, 10, 3, 0⟩], [⟨7, 4, 4, 0⟩]⟩

/-- Witness for C8 on `mRetr`: identifier 5 is found, identifier 99 is not,
and after clearing identifier 5 is no longer found. -/
theorem retrieve_order_result_spec_witness :
    (∃ x r, retrieve_order_result mRetr 5 = some r ∧ x.uuid = 5 ∧
      ((x ∈ mRetr.buy_orders ∧ r.ordertype = OrderType.Buy) ∨
        (x ∈ mRetr.sell_orders ∧ r.ordertype = OrderType.Sell)) ∧
      r.traded_quantity = x.traded_quantity ∧
      r.total_cost = (x.traded_quantity : Rat) * mRetr.price_per_unit) ∧
    retrieve_order_result mRetr 99 = none ∧
    retrieve_order_result (clear_state mRetr) 5 = none :=
  ⟨(retrieve_order_result_spec mRetr 5).1 (by decide),
   (retrieve_order_result_spec mRetr 99).2.1 (by decide),
   (retrieve_order_result_spec mRetr 5).2.2 5⟩

/-- C5 counterexample.  The source's `retrieve_order_result`
(`src/main.rs:563-577`) takes `&mut self` but never removes the order it finds,
so retrieving twice (with no intervening `clear_state`) does NOT yield
`NotFound` on the second call: on this concrete book the first call leaves the
book unchanged, and the second call returns the same `some` result again
instead of `none`. -/
theorem retrieve_twice_returns_some :
    (retrieve_order_result_call ⟨0, 2, [⟨7, 10, 0, 0⟩], []⟩ 7).1 =
      ⟨0, 2, [⟨7, 10, 0, 0⟩], []⟩ ∧
    ((retrieve_order_result_call
        (retrieve_order_result_call ⟨0, 2, [⟨7, 10, 0, 0⟩], []⟩ 7).1 7).2).isSome
      = true ∧
    (retrieve_order_result_call
        (retrieve_order_result_call ⟨0, 2, [⟨7, 10, 0, 0⟩], []⟩ 7).1 7).2 =
      (retrieve_order_result_call ⟨0, 2, [⟨7, 10, 0, 0⟩], []⟩ 7).2 := by
  refine ⟨by decide, by decide, rfl⟩

/-- C5 amended — Retrieval is idempotent, never a crash.  A retrieval call
leaves the book unchanged, so a second call with the same identifier (and no
intervening `clear_state`) returns the same result as the first — in
particular `some`, not `NotFound`, whenever the identifier is present — and
never crashes. -/
theorem retrieve_twice_same_result (m : TestMarket) (uuid : Nat)
    (h : ∃ x ∈ m.buy_orders ++ m.sell_orders, x.uuid = uuid) :
    (retrieve_order_result_call m uuid).1 = m ∧
    (retrieve_order_result_call (retrieve_order_result_call m uuid).1 uuid).2 =
      (retrieve_order_result_call m uuid).2 ∧
    ((retrieve_order_result_call (retrieve_order_result_call m uuid).1 uuid).2).isSome
      = true := by
  refine ⟨rfl, rfl, ?_⟩
  obtain ⟨x, r, hr, _⟩ := retrieve_found h
  show (retrieve_order_result m uuid).isSome = true
  rw [hr]
  rfl

/-- Witness for the amended C5 on a concrete book. -/
theorem retrieve_twice_same_result_witness :
    (retrieve_order_result_call mRetr 7).1 = mRetr ∧
    (retrieve_order_result_call (retrieve_order_result_call mRetr 7).1 7).2 =
      (retrieve_order_result_call mRetr 7).2 ∧
    ((retrieve_order_result_call (retrieve_order_result_call mRetr 7).1 7).2).isSome
      = true :=
  retrieve_twice_same_result mRetr 7 (by decide)

/-! ## Invariant preservation across all operations -/

/-- `distribute` preserves bounds and never decreases any recipient's traded
quantity, for every pool size. -/
theorem distribute_bounded_evolves {total : Nat} {rs : List OrderInfo} (hb : Bounded rs) :
    Bounded (distribute total rs).1 ∧ List.Forall₂ Evolves rs (distribute total rs).1 := by
  rcases le_or_lt total (missingSum rs) with h | h
  · obtain ⟨_, h2, h3, _⟩ := distribute_spec_le hb h
    exact ⟨h2, h3⟩
  · obtain ⟨_, _, h3, h4, _⟩ := distribute_spec_gt hb h
    exact ⟨h3, h4⟩

/-- C4 — Bounds invariant and within-tick monotonicity, operation by
operation.  `register_order` preserves `0 ≤ traded ≤ required` on both sides
(the new order starts at `traded = 0`); `distribute` and `trade_loop` preserve
bounds and only ever increase traded quantities (`Evolves`); a successful
`run_trade` leaves a book whose every order is within bounds and evolves
(same identifier, same requirement, traded quantity not decreased) from an
order of the input book; `retrieve_order_result` leaves the book untouched;
and `clear_state` leaves an (empty) book trivially within bounds. -/
theorem operations_preserve_invariants :
    (∀ (m : TestMarket) (otype : OrderType) (quantity : Nat) (prestige : Rat) (uuid : Nat),
      Bounded m.buy_orders → Bounded m.sell_orders →
      Bounded (register_order m otype quantity prestige uuid).1.buy_orders ∧
      Bounded (register_order m otype quantity prestige uuid).1.sell_orders) ∧
    (∀ (total : Nat) (rs : List OrderInfo), Bounded rs →
      Bounded (distribute total rs).1 ∧
      List.Forall₂ Evolves rs (distribute total rs).1) ∧
    (∀ (distrarray recvarray : List OrderInfo) (total : Nat)
      (out : List OrderInfo × List OrderInfo × Nat),
      Bounded distrarray → Bounded recvarray →
      trade_loop distrarray recvarray total = some out →
      Bounded out.1 ∧ Bounded out.2.1 ∧
      List.Forall₂ Evolves distrarray out.1 ∧
      List.Forall₂ Evolves recvarray out.2.1) ∧
    (∀ (m : TestMarket) (bts sts : List (List OrderInfo)) (m' : TestMarket) (t : Nat),
      Bounded m.buy_orders → Bounded m.sell_orders →
      IsTiering bts m.buy_orders → IsTiering sts m.sell_orders →
      run_trade m bts sts = some (m', t) →
      Bounded m'.buy_orders ∧ Bounded m'.sell_orders ∧
      (∀ x ∈ m'.buy_orders, ∃ y ∈ m.buy_orders, Evolves y x) ∧
      (∀ x ∈ m'.sell_orders, ∃ y ∈ m.sell_orders, Evolves y x)) ∧
    (∀ (m : TestMarket) (uuid : Nat), (retrieve_order_result_call m uuid).1 = m) ∧
    (∀ m : TestMarket,
      Bounded (clear_state m).buy_orders ∧ Bounded (clear_state m).sell_orders) := by
  refine ⟨?_, ?_, ?_, ?_, fun m uuid => rfl, fun m => ⟨bounded_nil, bounded_nil⟩⟩
  · intro m otype quantity prestige uuid hb hs
    cases otype with
    | Buy =>
      constructor
      · intro x hx
        rcases List.mem_append.mp hx with hx' | hx'
        · exact hb x hx'
        · rcases List.mem_singleton.mp hx' with rfl
          exact Nat.zero_le _
      · exact hs
    | Sell =>
      constructor
      · exact hb
      · intro x hx
        rcases List.mem_append.mp hx with hx' | hx'
        · exact hs x hx'
        · rcases List.mem_singleton.mp hx' with rfl
          exact Nat.zero_le _
  · intro total rs hb
    exact distribute_bounded_evolves hb
  · intro distrarray recvarray total out hbd hbr hsome
    rw [trade_loop_eq] at hsome
    by_cases hc : (distribute total recvarray).2 =
        (distribute (distribute total recvarray).2 distrarray).2
    · rw [if_pos hc] at hsome
      obtain rfl := (Option.some.injEq _ _ ▸ hsome :
        ((distribute (distribute total recvarray).2 distrarray).1,
          (distribute total recvarray).1, (distribute total recvarray).2) = out)
      exact ⟨(distribute_bounded_evolves hbd).1, (distribute_bounded_evolves hbr).1,
        (distribute_bounded_evolves hbd).2, (distribute_bounded_evolves hbr).2⟩
    · rw [if_neg hc] at hsome
      cases hsome
  · intro m bts sts m' t hb hs hbt hst hrun
    by_cases hemp : m.buy_orders = [] ∨ m.sell_orders = []
    · rw [run_trade_eq_of_empty m bts sts hemp] at hrun
      obtain ⟨rfl, rfl⟩ : m = m' ∧ 0 = t := by
        injection hrun with h
        injection h with h1 h2
        exact ⟨h1, h2⟩
      exact ⟨hb, hs, fun x hx => ⟨x, hx, evolves_refl x⟩,
        fun x hx => ⟨x, hx, evolves_refl x⟩⟩
    · push_neg at hemp
      obtain ⟨hbne, hsne⟩ := hemp
      cases bts with
      | nil => exact absurd rfl (isTiering_ne_nil hbt hbne)
      | cons b bts' =>
      cases sts with
      | nil => exact absurd rfl (isTiering_ne_nil hst hsne)
      | cons s sts' =>
      obtain ⟨nb, ns, t₀, heq, hnb, hns, hob, hos, _⟩ :=
        mainLoopF_spec (bts'.length + sts'.length + 1) b s bts' sts' [] [] 0
          (isTiering_bounded hbt hb b (List.mem_cons_self _ _))
          (isTiering_bounded hst hs s (List.mem_cons_self _ _))
          (fun u hu => isTiering_bounded hbt hb u (List.mem_cons_of_mem _ hu))
          (fun u hu => isTiering_bounded hst hs u (List.mem_cons_of_mem _ hu))
          (by omega)
      rw [run_trade_eq_of_main hbne hsne heq] at hrun
      obtain ⟨h1, h2⟩ : (⟨m.good_uid, m.price_per_unit, [] ++ nb, [] ++ ns⟩ :
          TestMarket) = m' ∧ t₀ = t := by
        injection hrun with h
        injection h with ha hb
        exact ⟨ha, hb⟩
      subst h1
      subst h2
      refine ⟨?_, ?_, ?_, ?_⟩
      · show Bounded ([] ++ nb)
        rw [List.nil_append]
        exact hnb
      · show Bounded ([] ++ ns)
        rw [List.nil_append]
        exact hns
      · show ∀ x ∈ [] ++ nb, ∃ y ∈ m.buy_orders, Evolves y x
        rw [List.nil_append]
        intro x hx
        obtain ⟨y, hy, hev⟩ := hob x hx
        rcases hy with hy | ⟨u, hu, hyu⟩
        · exact ⟨y, isTiering_mem hbt (List.mem_cons_self _ _) hy, hev⟩
        · exact ⟨y, isTiering_mem hbt (List.mem_cons_of_mem _ hu) hyu, hev⟩
      · show ∀ x ∈ [] ++ ns, ∃ y ∈ m.sell_orders, Evolves y x
        rw [List.nil_append]
        intro x hx
        obtain ⟨y, hy, hev⟩ := hos x hx
        rcases hy with hy | ⟨u, hu, hyu⟩
        · exact ⟨y, isTiering_mem hst (List.mem_cons_self _ _) hy, hev⟩
        · exact ⟨y, isTiering_mem hst (List.mem_cons_of_mem _ hu) hyu, hev⟩

/-! ## Remaining concrete evaluations -/

/-- A small balanced book: one buy order and one sell order, both for 5
units, same prestige bucket. -/
def mSmall : TestMarket :=
  ⟨0, 1, [⟨0, 5, 0, 0⟩], [⟨1, 5, 0, 0⟩]⟩

/-- Witness for C1 on `mSmall` with its singleton tierings. -/
theorem run_trade_conserves_quantity_witness :
    ∃ m' total,
      run_trade mSmall [[⟨0, 5, 0, 0⟩]] [[⟨1, 5, 0, 0⟩]] = some (m', total) ∧
      total = sumTraded m'.buy_orders ∧ total = sumTraded m'.sell_orders :=
  run_trade_conserves_quantity mSmall [[⟨0, 5, 0, 0⟩]] [[⟨1, 5, 0, 0⟩]]
    (by decide) (by decide) (by decide) (by decide)

/-- Witness for C6 on `mSmall` (aggregate demand 5 = aggregate supply 5). -/
theorem run_trade_full_clearing_witness :
    ∃ m' total,
      run_trade mSmall [[⟨0, 5, 0, 0⟩]] [[⟨1, 5, 0, 0⟩]] = some (m', total) ∧
      (∀ x ∈ m'.buy_orders, Full x) ∧ (∀ x ∈ m'.sell_orders, Full x) :=
  run_trade_full_clearing mSmall [[⟨0, 5, 0, 0⟩]] [[⟨1, 5, 0, 0⟩]]
    (by decide) (by decide) (by decide) (by decide) (by decide)

/-- Witness for C7 on a buy-only empty-sell book. -/
theorem run_trade_empty_side_no_trade_witness :
    run_trade ⟨0, 1, [⟨0, 5, 0, 0⟩], []⟩ [[⟨0, 5, 0, 0⟩]] [] =
      some (⟨0, 1, [⟨0, 5, 0, 0⟩], []⟩, 0) :=
  run_trade_empty_side_no_trade ⟨0, 1, [⟨0, 5, 0, 0⟩], []⟩ [[⟨0, 5, 0, 0⟩]] []
    (by decide)

/-- Witness for C4: each component of the invariant theorem applied at a
concrete input. -/
theorem operations_preserve_invariants_witness :
    (Bounded (register_order mSmall OrderType.Buy 3 0 9).1.buy_orders ∧
      Bounded (register_order mSmall OrderType.Buy 3 0 9).1.sell_orders) ∧
    (Bounded (distribute 4 [⟨0, 5, 0, 0⟩]).1 ∧
      List.Forall₂ Evolves [⟨0, 5, 0, 0⟩] (distribute 4 [⟨0, 5, 0, 0⟩]).1) ∧
    (Bounded ([⟨0, 5, 5, 0⟩] : List OrderInfo) ∧
      Bounded ([⟨1, 9, 5, 0⟩] : List OrderInfo) ∧
      List.Forall₂ Evolves [⟨0, 5, 0, 0⟩] [⟨0, 5, 5, 0⟩] ∧
      List.Forall₂ Evolves [⟨1, 9, 0, 0⟩] [⟨1, 9, 5, 0⟩]) ∧
    (Bounded (⟨0, 1, [⟨0, 5, 5, 0⟩], [⟨1, 5, 5, 0⟩]⟩ : TestMarket).buy_orders ∧
      Bounded (⟨0, 1, [⟨0, 5, 5, 0⟩], [⟨1, 5, 5, 0⟩]⟩ : TestMarket).sell_orders ∧
      (∀ x ∈ (⟨0, 1, [⟨0, 5, 5, 0⟩], [⟨1, 5, 5, 0⟩]⟩ : TestMarket).buy_orders,
        ∃ y ∈ mSmall.buy_orders, Evolves y x) ∧
      (∀ x ∈ (⟨0, 1, [⟨0, 5, 5, 0⟩], [⟨1, 5, 5, 0⟩]⟩ : TestMarket).sell_orders,
        ∃ y ∈ mSmall.sell_orders, Evolves y x)) ∧
    (retrieve_order_result_call mSmall 0).1 = mSmall ∧
    (Bounded (clear_state mSmall).buy_orders ∧ Bounded (clear_state mSmall).sell_orders) :=
  ⟨operations_preserve_invariants.1 mSmall OrderType.Buy 3 0 9 (by decide) (by decide),
   operations_preserve_invariants.2.1 4 [⟨0, 5, 0, 0⟩] (by decide),
   operations_preserve_invariants.2.2.1 [⟨0, 5, 0, 0⟩] [⟨1, 9, 0, 0⟩] 5
     ([⟨0, 5, 5, 0⟩], [⟨1, 9, 5, 0⟩], 5) (by decide) (by decide) (by decide),
   operations_preserve_invariants.2.2.2.1 mSmall [[⟨0, 5, 0, 0⟩]] [[⟨1, 5, 0, 0⟩]]
     ⟨0, 1, [⟨0, 5, 5, 0⟩], [⟨1, 5, 5, 0⟩]⟩ 5
     (by decide) (by decide) (by decide) (by decide) (by decide),
   operations_preserve_invariants.2.2.2.2.1 mSmall 0,
   operations_preserve_invariants.2.2.2.2.2 mSmall⟩

/-- The concrete book exhibiting claim C2's divergence: one buy order (id 0,
5 units, prestige 0) and two sell orders in different prestige buckets
(id 1, 10 units, prestige 0; id 2, 7 units, prestige 1). -/
def mDrop : TestMarket :=
  ⟨0, 1, [⟨0, 5, 0, 0⟩], [⟨1, 10, 0, 0⟩, ⟨2, 7, 0, 1⟩]⟩

/-- C2 — the matching loop drops not-yet-visited tiers.  On `mDrop`, whose
sell side has two prestige tiers, `run_trade` succeeds under either of the two
possible tier iteration orders (both are valid tierings of the book), yet the
resulting book has lost whichever sell tier the loop never visited: a sell
order registered before the call (id 2 in one order, id 1 in the other) is no
longer present, so `retrieve_order_result` for its identifier — which
succeeded before the call — now returns `NotFound`, contradicting the spec's
requirement that all registered orders survive with their identifiers so later
retrievals succeed (the in-repo callers `unwrap` these retrievals and would
panic). -/
theorem run_trade_drops_unvisited_tier :
    IsTiering [[⟨1, 10, 0, 0⟩], [⟨2, 7, 0, 1⟩]] mDrop.sell_orders ∧
    IsTiering [[⟨2, 7, 0, 1⟩], [⟨1, 10, 0, 0⟩]] mDrop.sell_orders ∧
    IsTiering [[⟨0, 5, 0, 0⟩]] mDrop.buy_orders ∧
    run_trade mDrop [[⟨0, 5, 0, 0⟩]] [[⟨1, 10, 0, 0⟩], [⟨2, 7, 0, 1⟩]] =
      some (⟨0, 1, [⟨0, 5, 5, 0⟩], [⟨1, 10, 5, 0⟩]⟩, 5) ∧
    run_trade mDrop [[⟨0, 5, 0, 0⟩]] [[⟨2, 7, 0, 1⟩], [⟨1, 10, 0, 0⟩]] =
      some (⟨0, 1, [⟨0, 5, 5, 0⟩], [⟨2, 7, 5, 1⟩]⟩, 5) ∧
    (retrieve_order_result mDrop 2).isSome = true ∧
    retrieve_order_result ⟨0, 1, [⟨0, 5, 5, 0⟩], [⟨1, 10, 5, 0⟩]⟩ 2 = none ∧
    (retrieve_order_result mDrop 1).isSome = true ∧
    retrieve_order_result ⟨0, 1, [⟨0, 5, 5, 0⟩], [⟨2, 7, 5, 1⟩]⟩ 1 = none := by
  refine ⟨by decide, by decide, by decide, by decide, by decide, by decide, by decide,
    by decide, by decide⟩
